import Mathlib

/-!
Shallow embedding of the custom rxjs operators of this repository
(`src/operators/wait_until.ts`, `src/operators/pipe_if.ts`) over a
discrete virtual-time (marble) semantics, together with proofs of the
specified properties.

A stream is modelled as the finite list of its notifications, each
tagged with its virtual-time frame: `next` carries a value, `error`
carries an error payload, `complete` carries nothing.  This matches the
cold-marble traces used by the repository's tests (`jasmine-marbles`
`cold(...)` with frame-based virtual time).
-/

/-- A single rxjs notification: a value, an error, or completion. -/
inductive Ev (α : Type u) (ε : Type v) where
  | next (a : α)
  | error (e : ε)
  | complete
deriving DecidableEq, Repr

namespace Ev

/-- Is this notification a `next`? -/
def isNext : Ev α ε → Bool
  | next _ => true
  | _ => false

/-- Is this notification a `complete`? -/
def isComplete : Ev α ε → Bool
  | complete => true
  | _ => false

/-- Is this notification an `error`? -/
def isError : Ev α ε → Bool
  | error _ => true
  | _ => false

end Ev

/-- A marble trace: the time-stamped notifications of a stream, in the
order they are delivered.  Frames are natural numbers of virtual time. -/
abbrev MStream (α : Type u) (ε : Type v) : Type (max u v) := List (Nat × Ev α ε)

/-- A trace is proper when every notification except possibly the last is
a `next`: terminals (`error`/`complete`) occur only as the final
notification.  Every cold-marble stream satisfies this. -/
def proper (s : MStream α ε) : Bool :=
  s.dropLast.all (fun te => te.2.isNext)

/-- A trace is chronological when its frames are non-decreasing. -/
def chrono (s : MStream α ε) : Prop :=
  List.Pairwise (fun (a b : Nat × Ev α ε) => a.1 ≤ b.1) s

instance : DecidablePred (chrono (α := α) (ε := ε)) := fun s => by
  unfold chrono; infer_instance

/-- The values carried by the `next` notifications of a trace, in order. -/
def values (s : MStream α ε) : List α :=
  s.filterMap (fun te => match te.2 with | Ev.next a => some a | _ => none)

/-- rxjs `take(1)`: pass through until the first `next`, re-emit it and
complete synchronously (same frame); an `error` or `complete` arriving
first is passed through unchanged. -/
def take1 : MStream α ε → MStream α ε
  | [] => []
  | (t, Ev.next a) :: _ => [(t, Ev.next a), (t, Ev.complete)]
  | (t, Ev.error e) :: _ => [(t, Ev.error e)]
  | (t, Ev.complete) :: _ => [(t, Ev.complete)]

/-- rxjs `map`: transform the value of every `next` notification. -/
def mapOp (f : α → β) (s : MStream α ε) : MStream β ε :=
  s.map (fun te => (te.1, match te.2 with
    | Ev.next a => Ev.next (f a)
    | Ev.error e => Ev.error e
    | Ev.complete => Ev.complete))

/-- rxjs `filter`: drop the `next` notifications whose value fails the
predicate; terminals pass through. -/
def filterOp (p : α → Bool) (s : MStream α ε) : MStream α ε :=
  s.filter (fun te => match te.2 with | Ev.next a => p a | _ => true)

/-! ### The combined event timeline of `combineLatest`

`waitUntil` subscribes `combineLatest` to the primary stream (source
index 0) and to `take(1)` of each gate (sources 1, 2, …), in that order.
With the virtual-time test scheduler all sources are cold and subscribed
at frame 0, so their notifications are delivered in frame order, and
notifications sharing a frame are delivered in subscription order:
primary first, then the gates in list order.  We build that single
merged timeline explicitly. -/

/-- A notification tagged with its originating source: the primary
stream, or the `i`-th gate (after `take(1)`). -/
inductive Src (α : Type u) (β : Type v) (ε : Type w) where
  | prim (e : Ev α ε)
  | gate (i : Nat) (e : Ev β ε)
deriving DecidableEq, Repr

/-- A tagged, time-stamped notification of the combined subscription. -/
abbrev TEv (α : Type u) (β : Type v) (ε : Type w) : Type (max u v w) :=
  Nat × Src α β ε

/-- The primary stream's notifications, tagged. -/
def tagPrim (p : MStream α ε) : List (TEv α β ε) :=
  p.map (fun te => (te.1, Src.prim te.2))

/-- The `i`-th gate's notifications after `take(1)`, tagged. -/
def tagGate (i : Nat) (g : MStream β ε) : List (TEv α β ε) :=
  (take1 g).map (fun te => (te.1, Src.gate i te.2))

/-- Fuel-driven merge of two timelines by frame; on equal frames the
left timeline's notification is delivered first (it belongs to an
earlier-subscribed source).  The fuel makes the recursion structural so
that concrete runs evaluate definitionally; with fuel at least the sum
of the lengths the fallback case is unreachable. -/
def mergeTF : Nat → List (TEv α β ε) → List (TEv α β ε) → List (TEv α β ε)
  | _, [], ys => ys
  | _, x :: xs, [] => x :: xs
  | 0, x :: xs, y :: ys => x :: xs ++ y :: ys
  | fuel + 1, x :: xs, y :: ys =>
    if x.1 ≤ y.1 then x :: mergeTF fuel xs (y :: ys)
    else y :: mergeTF fuel (x :: xs) ys

/-- Merge two timelines by frame, preferring the left one on ties. -/
def mergeT (xs ys : List (TEv α β ε)) : List (TEv α β ε) :=
  mergeTF (xs.length + ys.length) xs ys

theorem mergeTF_succ (f : Nat) (x y : TEv α β ε) (xs ys : List (TEv α β ε)) :
    mergeTF (f + 1) (x :: xs) (y :: ys) =
      if x.1 ≤ y.1 then x :: mergeTF f xs (y :: ys)
      else y :: mergeTF f (x :: xs) ys := rfl

theorem mergeTF_of_le :
    ∀ (f1 : Nat) (xs ys : List (TEv α β ε)) (f2 : Nat),
      xs.length + ys.length ≤ f1 → xs.length + ys.length ≤ f2 →
      mergeTF f1 xs ys = mergeTF f2 xs ys := by
  intro f1
  induction f1 with
  | zero =>
    intro xs ys f2 h1 h2
    cases xs with
    | nil => cases f2 <;> rfl
    | cons x xs => simp at h1
  | succ f1 ih =>
    intro xs ys f2 h1 h2
    cases xs with
    | nil => cases f2 <;> rfl
    | cons x xs =>
      cases ys with
      | nil => cases f2 <;> rfl
      | cons y ys =>
        cases f2 with
        | zero => simp at h2
        | succ f2 =>
          rw [mergeTF_succ, mergeTF_succ]
          by_cases hxy : x.1 ≤ y.1
          · rw [if_pos hxy, if_pos hxy,
              ih xs (y :: ys) f2
                (by simp only [List.length_cons] at h1 ⊢; omega)
                (by simp only [List.length_cons] at h2 ⊢; omega)]
          · rw [if_neg hxy, if_neg hxy,
              ih (x :: xs) ys f2
                (by simp only [List.length_cons] at h1 ⊢; omega)
                (by simp only [List.length_cons] at h2 ⊢; omega)]

theorem mergeTF_nil_left (f : Nat) (ys : List (TEv α β ε)) :
    mergeTF f [] ys = ys := by
  cases f <;> rfl

theorem mergeTF_cons_nil (f : Nat) (x : TEv α β ε) (xs : List (TEv α β ε)) :
    mergeTF f (x :: xs) [] = x :: xs := by
  cases f <;> rfl

theorem mergeT_nil_left (ys : List (TEv α β ε)) : mergeT [] ys = ys :=
  mergeTF_nil_left _ ys

theorem mergeT_cons_nil (x : TEv α β ε) (xs : List (TEv α β ε)) :
    mergeT (x :: xs) [] = x :: xs :=
  mergeTF_cons_nil _ x xs

theorem mergeT_cons_cons (x y : TEv α β ε) (xs ys : List (TEv α β ε)) :
    mergeT (x :: xs) (y :: ys) =
      if x.1 ≤ y.1 then x :: mergeT xs (y :: ys)
      else y :: mergeT (x :: xs) ys := by
  rw [mergeT,
    show (x :: xs).length + (y :: ys).length =
      (xs.length + (y :: ys).length) + 1 from by
        simp only [List.length_cons]; omega,
    mergeTF_succ]
  by_cases hxy : x.1 ≤ y.1
  · rw [if_pos hxy, if_pos hxy, mergeT]
  · rw [if_neg hxy, if_neg hxy, mergeT,
      mergeTF_of_le _ _ _ ((x :: xs).length + ys.length)
        (by simp only [List.length_cons]; omega)
        (by simp only [List.length_cons]; omega)]

/-- The merged timeline of the gates numbered `i0, i0+1, …`, each taken
through `take(1)`. -/
def tagGates (i0 : Nat) : List (MStream β ε) → List (TEv α β ε)
  | [] => []
  | g :: gs => mergeT (tagGate i0 g) (tagGates (i0 + 1) gs)

/-- The full merged timeline seen by `combineLatest` inside `waitUntil`:
the primary stream first in subscription order, then the gates. -/
def merged (p : MStream α ε) (gates : List (MStream β ε)) : List (TEv α β ε) :=
  mergeT (tagPrim p) (tagGates 0 gates)

/-! ### The `combineLatest` state machine

Mirrors the rxjs 6 `CombineLatestSubscriber`: it records the latest
value of every source, emits a combination whenever a source produces a
value and every source has produced at least one, forwards the first
error immediately, and completes once every source has completed.
`waitUntil` post-composes `map(([value]) => value)`, which projects the
combination to its first component — the primary's latest value — so the
machine below emits that projection directly. -/

/-- The subscriber state of `combineLatest` inside `waitUntil`:
the primary's latest value, each gate's latest value, completion flags,
and whether a terminal notification has already been delivered
downstream (after which everything is ignored).  `failed` records that
the terminal was an error (bookkeeping for the spec's state machine). -/
structure CLSt (α : Type u) (β : Type v) where
  pLatest : Option α
  gLatest : List (Option β)
  pDone : Bool
  gDone : List Bool
  halted : Bool
  failed : Bool
deriving DecidableEq, Repr

/-- Every source, primary included, has delivered at least one value. -/
def CLSt.allReady (s : CLSt α β) : Bool :=
  s.pLatest.isSome && s.gLatest.all Option.isSome

/-- Every source has completed. -/
def CLSt.allDone (s : CLSt α β) : Bool :=
  s.pDone && s.gDone.all id

/-- One step of the `combineLatest` subscriber on a tagged notification:
returns the new state and the notifications emitted downstream. -/
def stepCL (s : CLSt α β) : TEv α β ε → CLSt α β × MStream α ε
  | (t, te) =>
    if s.halted then (s, []) else
    match te with
    | Src.prim (Ev.next a) =>
      let s' := { s with pLatest := some a }
      (s', if s.gLatest.all Option.isSome then [(t, Ev.next a)] else [])
    | Src.prim (Ev.error e) =>
      ({ s with halted := true, failed := true }, [(t, Ev.error e)])
    | Src.prim Ev.complete =>
      let s' := { s with pDone := true }
      if s'.gDone.all id then ({ s' with halted := true }, [(t, Ev.complete)])
      else (s', [])
    | Src.gate i (Ev.next b) =>
      let s' := { s with gLatest := s.gLatest.set i (some b) }
      match s.pLatest with
      | some a =>
        (s', if s'.gLatest.all Option.isSome then [(t, Ev.next a)] else [])
      | none => (s', [])
    | Src.gate _ (Ev.error e) =>
      ({ s with halted := true, failed := true }, [(t, Ev.error e)])
    | Src.gate i Ev.complete =>
      let s' := { s with gDone := s.gDone.set i true }
      if s.pDone && s'.gDone.all id then
        ({ s' with halted := true }, [(t, Ev.complete)])
      else (s', [])

/-- Run the `combineLatest` subscriber over a timeline, collecting the
downstream notifications. -/
def runCL (s : CLSt α β) : List (TEv α β ε) → MStream α ε
  | [] => []
  | te :: rest =>
    let p := stepCL s te
    p.2 ++ runCL p.1 rest

/-- The initial subscriber state for `n` gates. -/
def initSt (n : Nat) : CLSt α β :=
  ⟨none, List.replicate n none, false, List.replicate n false, false, false⟩

/-- Model of `waitUntil(...observables)` applied to `input`:
`combineLatest([input, ...observables.map(o => o.pipe(take(1)))])` piped
through `map(([value]) => value)` (src/operators/wait_until.ts). -/
def waitUntil (observables : List (MStream β ε)) (input : MStream α ε) :
    MStream α ε :=
  runCL (initSt observables.length) (merged input observables)

/-! ### The spec's conceptual state machine for a `waitUntil` instance -/

/-- The four conceptual states the specification ascribes to a
`waitUntil` instance. -/
inductive SpecState where
  | WAITING
  | ACTIVE
  | FAILED
  | COMPLETED
deriving DecidableEq, Repr

/-- The conceptual state of a subscriber state: terminal once a terminal
notification went downstream (an error means FAILED, otherwise
COMPLETED); before that, ACTIVE once every gate has delivered a value,
WAITING otherwise. -/
def specOf (s : CLSt α β) : SpecState :=
  if s.halted then (if s.failed then SpecState.FAILED else SpecState.COMPLETED)
  else if s.gLatest.all Option.isSome then SpecState.ACTIVE
  else SpecState.WAITING

/-- The subscriber state reached after processing a timeline. -/
def foldSt (s : CLSt α β) (evs : List (TEv α β ε)) : CLSt α β :=
  evs.foldl (fun s te => (stepCL s te).1) s

/-- The sequence of subscriber states along a timeline, starting with the
given state. -/
def stateTrace (s : CLSt α β) : List (TEv α β ε) → List (CLSt α β)
  | [] => [s]
  | te :: rest => s :: stateTrace (stepCL s te).1 rest

/-! ### Projections of a merged timeline, used to state the invariants -/

/-- The primary stream's notifications of a merged timeline, in order. -/
def primProj : List (TEv α β ε) → MStream α ε :=
  List.filterMap (fun te => match te with
    | (t, Src.prim e) => some (t, e)
    | _ => none)

/-- The `i`-th gate's notifications of a merged timeline, in order. -/
def gateProj (i : Nat) : List (TEv α β ε) → MStream β ε :=
  List.filterMap (fun te => match te with
    | (t, Src.gate j e) => if j = i then some (t, e) else none
    | _ => none)

/-- The shapes a gate's notification list can have at any point of the
run: a gate passes through `take(1)`, so it contributes at most one
`next`, immediately followed by `complete`, or a lone terminal. -/
def gShapeB : MStream β ε → Bool
  | [] => true
  | [(_, Ev.complete)] => true
  | [(_, Ev.error _)] => true
  | [(_, Ev.next _), (_, Ev.complete)] => true
  | _ => false

/-- The first error notification of a merged timeline: the error the
combined subscriber forwards, if any. -/
def firstErr : List (TEv α β ε) → Option (Nat × ε)
  | [] => none
  | (t, Src.prim (Ev.error e)) :: _ => some (t, e)
  | (t, Src.gate _ (Ev.error e)) :: _ => some (t, e)
  | _ :: rest => firstErr rest

/-! ### `pipeIf` -/

/-- Model of `pipeIf(condition, truePipe, falsePipe)` applied to `stream`
(src/operators/pipe_if.ts): `defer` evaluates the factory at
subscription time, so the resulting stream is a function of the world
`w` in which the subscription occurs; the factory reads `condition`
once in that world and selects the corresponding pipe. -/
def pipeIf {W : Type w} (condition : W → Bool)
    (truePipe falsePipe : MStream α ε → MStream β ε)
    (stream : MStream α ε) : W → MStream β ε :=
  fun w => if condition w then truePipe stream else falsePipe stream

/-- Model of `pipeIf` in the presence of thrown exceptions, with
`Except`: the `defer` factory body may throw while reading the
condition or while constructing the selected pipe's stream; rxjs
`defer` catches any such throw and delivers it to the subscriber as an
error notification at the subscription frame. -/
def pipeIfTry {W : Type w} (condition : W → Except ε Bool)
    (truePipe falsePipe : MStream α ε → Except ε (MStream β ε))
    (stream : MStream α ε) : W → MStream β ε :=
  fun w =>
    match condition w with
    | Except.error e => [(0, Ev.error e)]
    | Except.ok b =>
      match (if b then truePipe stream else falsePipe stream) with
      | Except.ok out => out
      | Except.error e => [(0, Ev.error e)]

/-! ### The marble streams of the repository's test suites

`wait_until.spec.ts` uses primary `-x-y-----z|` with gates `------a|`,
`b|`, `--c|` and expects `------y--z|`; the `pipeIf` test uses input
`X-y-z|`.  Frame numbers follow the jasmine-marbles convention: one
frame per marble character, values as `Char`, errors coded as `Nat`. -/

/-- Primary marble `-x-y-----z|`: x at frame 1, y at 3, z at 9,
completion at 10. -/
def xM : MStream Char Nat :=
  [(1, Ev.next 'x'), (3, Ev.next 'y'), (9, Ev.next 'z'), (10, Ev.complete)]

/-- Gate marble `------a|`: first emission at frame 6. -/
def aM : MStream Char Nat := [(6, Ev.next 'a'), (7, Ev.complete)]

/-- Gate marble `b|`: first emission at frame 0. -/
def bM : MStream Char Nat := [(0, Ev.next 'b'), (1, Ev.complete)]

/-- Gate marble `--c|`: first emission at frame 2. -/
def cM : MStream Char Nat := [(2, Ev.next 'c'), (3, Ev.complete)]

/-- Input marble `X-y-z|` of the `pipeIf` test. -/
def inM : MStream Char Nat :=
  [(0, Ev.next 'X'), (2, Ev.next 'y'), (4, Ev.next 'z'), (5, Ev.complete)]

/-- The true branch of the `pipeIf` test:
`pipe(filter(v => v !== 'y'), map(v => v.toUpperCase()))`. -/
def truePipeM : MStream Char Nat → MStream Char Nat :=
  fun s => mapOp Char.toUpper (filterOp (fun v => v != 'y') s)

/-- The false branch of the `pipeIf` test: `map(v => v.toLowerCase())`. -/
def falsePipeM : MStream Char Nat → MStream Char Nat :=
  fun s => mapOp Char.toLower s

/-! ## Basic lemmas about the embedding -/

theorem runCL_halted (s : CLSt α β) (h : s.halted = true) :
    ∀ evs : List (TEv α β ε), runCL s evs = [] := by
  intro evs
  induction evs with
  | nil => rfl
  | cons te rest ih =>
    obtain ⟨t, src⟩ := te
    simp only [runCL, stepCL, h, if_true]
    simpa using ih

theorem mem_mergeTF (a : TEv α β ε) :
    ∀ (f : Nat) (xs ys : List (TEv α β ε)),
      a ∈ mergeTF f xs ys ↔ a ∈ xs ∨ a ∈ ys := by
  intro f
  induction f with
  | zero =>
    intro xs ys
    cases xs with
    | nil => simp [mergeTF]
    | cons x xs =>
      cases ys with
      | nil => simp [mergeTF]
      | cons y ys => simp [mergeTF]; tauto
  | succ f ih =>
    intro xs ys
    cases xs with
    | nil => simp [mergeTF]
    | cons x xs =>
      cases ys with
      | nil => simp [mergeTF]
      | cons y ys =>
        rw [mergeTF_succ]
        by_cases hxy : x.1 ≤ y.1
        · rw [if_pos hxy]
          simp only [List.mem_cons, ih]
          tauto
        · rw [if_neg hxy]
          simp only [List.mem_cons, ih]
          tauto

theorem mem_mergeT (a : TEv α β ε) :
    ∀ xs ys, a ∈ mergeT xs ys ↔ a ∈ xs ∨ a ∈ ys :=
  fun xs ys => mem_mergeTF a _ xs ys

theorem pairwise_mergeT :
    ∀ xs ys : List (TEv α β ε),
      List.Pairwise (fun a b => a.1 ≤ b.1) xs →
      List.Pairwise (fun a b => a.1 ≤ b.1) ys →
      List.Pairwise (fun a b => a.1 ≤ b.1) (mergeT xs ys) := by
  intro xs
  induction xs with
  | nil => intro ys _ hy; rw [mergeT_nil_left]; exact hy
  | cons x xs ihx =>
    intro ys
    induction ys with
    | nil => intro hx _; rw [mergeT_cons_nil]; exact hx
    | cons y ys ihy =>
      intro hx hy
      rw [mergeT_cons_cons]
      by_cases hxy : x.1 ≤ y.1
      · rw [if_pos hxy]
        refine List.pairwise_cons.mpr ⟨?_, ihx (y :: ys) hx.of_cons hy⟩
        intro z hz
        rcases (mem_mergeT z xs (y :: ys)).mp hz with hzx | hzy
        · exact (List.pairwise_cons.mp hx).1 z hzx
        · rcases List.mem_cons.mp hzy with rfl | hzy
          · exact hxy
          · exact le_trans hxy ((List.pairwise_cons.mp hy).1 z hzy)
      · rw [if_neg hxy]
        refine List.pairwise_cons.mpr ⟨?_, ihy hx hy.of_cons⟩
        intro z hz
        have hyx : y.1 ≤ x.1 := le_of_not_le hxy
        rcases (mem_mergeT z (x :: xs) ys).mp hz with hzx | hzy
        · rcases List.mem_cons.mp hzx with rfl | hzx
          · exact hyx
          · exact le_trans hyx ((List.pairwise_cons.mp hx).1 z hzx)
        · exact (List.pairwise_cons.mp hy).1 z hzy

theorem filterMap_mergeT_left (f : TEv α β ε → Option γ) :
    ∀ xs ys, (∀ y ∈ ys, f y = none) →
      (mergeT xs ys).filterMap f = xs.filterMap f := by
  intro xs
  induction xs with
  | nil =>
    intro ys hy
    rw [mergeT_nil_left, List.filterMap_eq_nil_iff.mpr hy]
    rfl
  | cons x xs ihx =>
    intro ys
    induction ys with
    | nil => intro _; rw [mergeT_cons_nil]
    | cons y ys ihy =>
      intro hy
      rw [mergeT_cons_cons]
      by_cases hxy : x.1 ≤ y.1
      · rw [if_pos hxy, List.filterMap_cons, List.filterMap_cons,
          ihx (y :: ys) hy]
      · rw [if_neg hxy, List.filterMap_cons, hy y (List.mem_cons_self y ys)]
        exact ihy (fun z hz => hy z (List.mem_cons_of_mem y hz))

theorem filterMap_mergeT_right (f : TEv α β ε → Option γ) :
    ∀ xs ys, (∀ x ∈ xs, f x = none) →
      (mergeT xs ys).filterMap f = ys.filterMap f := by
  intro xs
  induction xs with
  | nil => intro ys _; rw [mergeT_nil_left]
  | cons x xs ihx =>
    intro ys
    induction ys with
    | nil =>
      intro hx
      rw [mergeT_cons_nil, List.filterMap_eq_nil_iff.mpr hx]
      rfl
    | cons y ys ihy =>
      intro hx
      rw [mergeT_cons_cons]
      by_cases hxy : x.1 ≤ y.1
      · rw [if_pos hxy, List.filterMap_cons, hx x (List.mem_cons_self x xs)]
        exact ihx (y :: ys) (fun z hz => hx z (List.mem_cons_of_mem x hz))
      · rw [if_neg hxy, List.filterMap_cons, List.filterMap_cons, ihy hx]

theorem tagGate_idx {i j : Nat} {t : Nat} {e : Ev β ε} {g : MStream β ε}
    (h : (t, Src.gate j e) ∈ tagGate (α := α) i g) : j = i := by
  rcases List.mem_map.mp h with ⟨te, _, heq⟩
  cases heq
  rfl

theorem tagGate_no_prim {i : Nat} {t : Nat} {e : Ev α ε} {g : MStream β ε}
    (h : (t, Src.prim e) ∈ tagGate (α := α) i g) : False := by
  rcases List.mem_map.mp h with ⟨te, _, heq⟩
  cases heq

theorem tagGates_idx :
    ∀ (gs : List (MStream β ε)) (i0 : Nat) (t j : Nat) (e : Ev β ε),
      (t, Src.gate j e) ∈ tagGates (α := α) i0 gs →
      i0 ≤ j ∧ j < i0 + gs.length := by
  intro gs
  induction gs with
  | nil => intro i0 t j e h; cases h
  | cons g gs ih =>
    intro i0 t j e h
    rcases (mem_mergeT _ _ _).mp h with hg | hgs
    · have := tagGate_idx hg
      subst this
      simp
    · have := ih (i0 + 1) t j e hgs
      constructor
      · omega
      · simp only [List.length_cons]
        omega

theorem tagGates_no_prim :
    ∀ (gs : List (MStream β ε)) (i0 : Nat) (t : Nat) (e : Ev α ε),
      (t, Src.prim e) ∈ tagGates (α := α) i0 gs → False := by
  intro gs
  induction gs with
  | nil => intro i0 t e h; cases h
  | cons g gs ih =>
    intro i0 t e h
    rcases (mem_mergeT _ _ _).mp h with hg | hgs
    · exact tagGate_no_prim hg
    · exact ih (i0 + 1) t e hgs

theorem primProj_tagPrim : ∀ p : MStream α ε, primProj (tagPrim (β := β) p) = p := by
  intro p
  induction p with
  | nil => rfl
  | cons te rest ih =>
    obtain ⟨t, e⟩ := te
    simp only [tagPrim, primProj, List.map_cons, List.filterMap_cons] at *
    rw [ih]

theorem primProj_merged (p : MStream α ε) (gates : List (MStream β ε)) :
    primProj (merged p gates) = p := by
  rw [merged]
  unfold primProj
  rw [filterMap_mergeT_left]
  · exact primProj_tagPrim p
  · intro y hy
    obtain ⟨t, src⟩ := y
    cases src with
    | prim e => exact absurd hy (fun h => tagGates_no_prim _ _ _ _ h)
    | gate i e => rfl

theorem gateProj_tagPrim (i : Nat) (p : MStream α ε) :
    gateProj i (tagPrim (β := β) p) = [] := by
  rw [gateProj, List.filterMap_eq_nil_iff]
  intro te hte
  rcases List.mem_map.mp hte with ⟨x, _, heq⟩
  cases heq
  rfl

theorem gateProj_tagGate_self (i : Nat) (g : MStream β ε) :
    gateProj i (tagGate (α := α) i g) = take1 g := by
  rw [gateProj, tagGate]
  induction take1 g with
  | nil => rfl
  | cons te rest ih =>
    obtain ⟨t, e⟩ := te
    simp [List.map_cons, List.filterMap_cons, ih]

theorem gateProj_tagGate_ne {i j : Nat} (h : j ≠ i) (g : MStream β ε) :
    gateProj i (tagGate (α := α) j g) = [] := by
  rw [gateProj, List.filterMap_eq_nil_iff]
  intro te hte
  rcases List.mem_map.mp hte with ⟨x, _, heq⟩
  cases heq
  simp [h]

theorem gateProj_eq_of_no_gate {i : Nat} {l : List (TEv α β ε)}
    (h : ∀ t e, (t, Src.gate i e) ∉ l) : gateProj i l = [] := by
  rw [gateProj, List.filterMap_eq_nil_iff]
  intro te hte
  obtain ⟨t, src⟩ := te
  cases src with
  | prim e => rfl
  | gate j e =>
    by_cases hji : j = i
    · subst hji; exact absurd hte (h t e)
    · simp [hji]

theorem gateProj_tagGates_lt :
    ∀ (gs : List (MStream β ε)) (i0 k : Nat) (g : MStream β ε),
      gs[k]? = some g →
      gateProj (i0 + k) (tagGates (α := α) i0 gs) = take1 g := by
  intro gs
  induction gs with
  | nil => intro i0 k g h; cases h
  | cons g0 gs ih =>
    intro i0 k g h
    rw [tagGates]
    cases k with
    | zero =>
      simp only [List.getElem?_cons_zero, Option.some_inj] at h
      subst h
      unfold gateProj
      rw [filterMap_mergeT_left]
      · exact gateProj_tagGate_self _ _
      · intro y hy
        obtain ⟨t, src⟩ := y
        cases src with
        | prim e => rfl
        | gate j e =>
          have hb := tagGates_idx (α := α) gs (i0 + 1) t j e hy
          have hne : ¬(j = i0) := by omega
          simp [hne]
    | succ k =>
      simp only [List.getElem?_cons_succ] at h
      rw [show i0 + (k + 1) = i0 + 1 + k from by omega]
      unfold gateProj
      rw [filterMap_mergeT_right]
      · have hres := ih (i0 + 1) k g h
        unfold gateProj at hres
        exact hres
      · intro y hy
        obtain ⟨t, src⟩ := y
        cases src with
        | prim e => exact absurd hy (fun hc => tagGate_no_prim hc)
        | gate j e =>
          have hj := tagGate_idx hy
          have hne : ¬(j = i0 + 1 + k) := by omega
          simp [hne]

theorem gateProj_tagGates_ge :
    ∀ (gs : List (MStream β ε)) (i0 i : Nat),
      (i < i0 ∨ i0 + gs.length ≤ i) →
      gateProj i (tagGates (α := α) i0 gs) = [] := by
  intro gs i0 i h
  apply gateProj_eq_of_no_gate
  intro t e hmem
  have := tagGates_idx gs i0 t i e hmem
  omega

theorem gateProj_merged_lt (p : MStream α ε) (gates : List (MStream β ε))
    {k : Nat} {g : MStream β ε} (h : gates[k]? = some g) :
    gateProj k (merged p gates) = take1 g := by
  rw [merged]
  unfold gateProj
  rw [filterMap_mergeT_right]
  · have hres := gateProj_tagGates_lt (α := α) gates 0 k g h
    rw [Nat.zero_add] at hres
    unfold gateProj at hres
    exact hres
  · intro y hy
    rcases List.mem_map.mp hy with ⟨x, _, heq⟩
    cases heq
    rfl

theorem gateProj_merged_ge (p : MStream α ε) (gates : List (MStream β ε))
    {i : Nat} (h : gates.length ≤ i) :
    gateProj i (merged p gates) = [] := by
  rw [merged]
  apply gateProj_eq_of_no_gate
  intro t e hmem
  rcases (mem_mergeT _ _ _).mp hmem with hp | hg
  · rcases List.mem_map.mp hp with ⟨x, _, heq⟩
    cases heq
  · have := tagGates_idx gates 0 t i e hg
    omega

theorem proper_tail {x : Nat × Ev α ε} {l : MStream α ε}
    (h : proper (x :: l) = true) : proper l = true := by
  cases l with
  | nil => rfl
  | cons y l =>
    rw [proper, List.dropLast_cons_of_ne_nil (by simp), List.all_cons,
        Bool.and_eq_true] at h
    exact h.2

theorem proper_terminal_head {x : Nat × Ev α ε} {l : MStream α ε}
    (h : proper (x :: l) = true) (hx : x.2.isNext = false) : l = [] := by
  cases l with
  | nil => rfl
  | cons y l =>
    rw [proper, List.dropLast_cons_of_ne_nil (by simp), List.all_cons,
        Bool.and_eq_true] at h
    simp [h.1] at hx

theorem take1_next_mem {g : MStream β ε} {t : Nat} {w : β}
    (h : (t, Ev.next w) ∈ take1 g) : (t, Ev.next (ε := ε) w) ∈ g := by
  cases g with
  | nil => cases h
  | cons x g =>
    obtain ⟨t0, e0⟩ := x
    cases e0 with
    | next a =>
      simp [take1] at h
      obtain ⟨rfl, rfl⟩ := h
      exact List.mem_cons_self _ _
    | error e => simp [take1] at h
    | complete => simp [take1] at h

theorem gShapeB_take1 : ∀ g : MStream β ε, gShapeB (take1 g) = true := by
  intro g
  cases g with
  | nil => rfl
  | cons x g =>
    obtain ⟨t, e⟩ := x
    cases e <;> rfl

theorem gShapeB_tail {x : Nat × Ev β ε} {l : MStream β ε}
    (h : gShapeB (x :: l) = true) : gShapeB l = true := by
  obtain ⟨t, e⟩ := x
  cases l with
  | nil => rfl
  | cons y l =>
    obtain ⟨u, f⟩ := y
    cases l with
    | nil =>
      cases e <;> cases f <;> first | rfl | exact Bool.noConfusion h
    | cons z l => cases e <;> cases f <;> exact Bool.noConfusion h

theorem firstErr_mem :
    ∀ (evs : List (TEv α β ε)) (t : Nat) (e : ε), firstErr evs = some (t, e) →
      (t, Src.prim (Ev.error e)) ∈ evs ∨
        ∃ i, (t, Src.gate (β := β) i (Ev.error e)) ∈ evs := by
  intro evs
  induction evs with
  | nil => intro t e h; cases h
  | cons te rest ih =>
    intro t e h
    obtain ⟨u, src⟩ := te
    cases src with
    | prim f =>
      cases f with
      | next a =>
        exact (ih t e h).imp (List.mem_cons_of_mem _)
          (fun hg => hg.imp (fun i => List.mem_cons_of_mem _))
      | error e0 =>
        rw [firstErr] at h
        obtain ⟨rfl, rfl⟩ : u = t ∧ e0 = e := by
          have := Option.some_inj.mp h
          exact ⟨congrArg Prod.fst this, congrArg Prod.snd this⟩
        exact Or.inl (List.mem_cons_self _ _)
      | complete =>
        exact (ih t e h).imp (List.mem_cons_of_mem _)
          (fun hg => hg.imp (fun i => List.mem_cons_of_mem _))
    | gate i f =>
      cases f with
      | next a =>
        exact (ih t e h).imp (List.mem_cons_of_mem _)
          (fun hg => hg.imp (fun j => List.mem_cons_of_mem _))
      | error e0 =>
        rw [firstErr] at h
        obtain ⟨rfl, rfl⟩ : u = t ∧ e0 = e := by
          have := Option.some_inj.mp h
          exact ⟨congrArg Prod.fst this, congrArg Prod.snd this⟩
        exact Or.inr ⟨i, List.mem_cons_self _ _⟩
      | complete =>
        exact (ih t e h).imp (List.mem_cons_of_mem _)
          (fun hg => hg.imp (fun j => List.mem_cons_of_mem _))

theorem chrono_take1 (g : MStream β ε) : chrono (take1 g) := by
  cases g with
  | nil => exact List.Pairwise.nil
  | cons x g =>
    obtain ⟨t, e⟩ := x
    cases e <;> simp [take1, chrono]

theorem sorted_tagPrim {p : MStream α ε} (h : chrono p) :
    List.Pairwise (fun (a b : TEv α β ε) => a.1 ≤ b.1) (tagPrim p) := by
  rw [tagPrim, List.pairwise_map]
  exact h

theorem sorted_tagGate (i : Nat) (g : MStream β ε) :
    List.Pairwise (fun (a b : TEv α β ε) => a.1 ≤ b.1) (tagGate i g) := by
  rw [tagGate, List.pairwise_map]
  exact chrono_take1 g

theorem sorted_tagGates :
    ∀ (gs : List (MStream β ε)) (i0 : Nat),
      List.Pairwise (fun (a b : TEv α β ε) => a.1 ≤ b.1) (tagGates i0 gs) := by
  intro gs
  induction gs with
  | nil => intro i0; exact List.Pairwise.nil
  | cons g gs ih =>
    intro i0
    exact pairwise_mergeT _ _ (sorted_tagGate i0 g) (ih (i0 + 1))

theorem sorted_merged {p : MStream α ε} (gates : List (MStream β ε))
    (h : chrono p) :
    List.Pairwise (fun (a b : TEv α β ε) => a.1 ≤ b.1) (merged p gates) :=
  pairwise_mergeT _ _ (sorted_tagPrim h) (sorted_tagGates gates 0)

/-! ## Unfolding equations for single subscriber steps -/

theorem runCL_cons (s : CLSt α β) (te : TEv α β ε) (rest : List (TEv α β ε)) :
    runCL s (te :: rest) = (stepCL s te).2 ++ runCL (stepCL s te).1 rest := rfl

theorem stepCL_of_halted (s : CLSt α β) (h : s.halted = true) (te : TEv α β ε) :
    stepCL s te = (s, []) := by
  obtain ⟨t, src⟩ := te
  simp [stepCL, h]

theorem stepCL_prim_next (s : CLSt α β) (h : s.halted = false) (t : Nat) (a : α) :
    stepCL (ε := ε) (β := β) s (t, Src.prim (Ev.next a)) =
      ({ s with pLatest := some a },
        if s.gLatest.all Option.isSome then [(t, Ev.next a)] else []) := by
  simp [stepCL, h]

theorem stepCL_prim_error (s : CLSt α β) (h : s.halted = false) (t : Nat) (e : ε) :
    stepCL (β := β) s (t, Src.prim (Ev.error e)) =
      ({ s with halted := true, failed := true }, [(t, Ev.error e)]) := by
  simp [stepCL, h]

theorem stepCL_prim_complete (s : CLSt α β) (h : s.halted = false) (t : Nat) :
    stepCL (ε := ε) (β := β) s (t, Src.prim Ev.complete) =
      if s.gDone.all id then
        ({ s with pDone := true, halted := true }, [(t, Ev.complete)])
      else ({ s with pDone := true }, []) := by
  simp [stepCL, h]

theorem stepCL_gate_next_some (s : CLSt α β) (h : s.halted = false) (t i : Nat)
    (b : β) (a : α) (ha : s.pLatest = some a) :
    stepCL (ε := ε) s (t, Src.gate i (Ev.next b)) =
      ({ s with gLatest := s.gLatest.set i (some b) },
        if (s.gLatest.set i (some b)).all Option.isSome then [(t, Ev.next a)]
        else []) := by
  simp [stepCL, h, ha]

theorem stepCL_gate_next_none (s : CLSt α β) (h : s.halted = false) (t i : Nat)
    (b : β) (ha : s.pLatest = none) :
    stepCL (ε := ε) s (t, Src.gate i (Ev.next b)) =
      ({ s with gLatest := s.gLatest.set i (some b) }, []) := by
  simp [stepCL, h, ha]

theorem stepCL_gate_error (s : CLSt α β) (h : s.halted = false) (t i : Nat)
    (e : ε) :
    stepCL (α := α) s (t, Src.gate i (Ev.error e)) =
      ({ s with halted := true, failed := true }, [(t, Ev.error e)]) := by
  simp [stepCL, h]

theorem stepCL_gate_complete (s : CLSt α β) (h : s.halted = false) (t i : Nat) :
    stepCL (α := α) (ε := ε) s (t, Src.gate i Ev.complete) =
      if s.pDone && (s.gDone.set i true).all id then
        ({ s with gDone := s.gDone.set i true, halted := true },
          [(t, Ev.complete)])
      else ({ s with gDone := s.gDone.set i true }, []) := by
  simp [stepCL, h]


/-! ## Equations for projections and values -/

theorem primProj_cons_prim (t : Nat) (e : Ev α ε) (rest : List (TEv α β ε)) :
    primProj ((t, Src.prim e) :: rest) = (t, e) :: primProj rest := rfl

theorem primProj_cons_gate (t i : Nat) (e : Ev β ε) (rest : List (TEv α β ε)) :
    primProj ((t, Src.gate i e) :: rest) = primProj rest := rfl

theorem gateProj_cons_prim (j t : Nat) (e : Ev α ε) (rest : List (TEv α β ε)) :
    gateProj j ((t, Src.prim e) :: rest) = gateProj j rest := rfl

theorem gateProj_cons_gate_self (i t : Nat) (e : Ev β ε)
    (rest : List (TEv α β ε)) :
    gateProj i ((t, Src.gate i e) :: rest) = (t, e) :: gateProj i rest := by
  simp [gateProj, List.filterMap_cons]

theorem gateProj_cons_gate_ne {i j : Nat} (h : ¬(i = j)) (t : Nat) (e : Ev β ε)
    (rest : List (TEv α β ε)) :
    gateProj j ((t, Src.gate i e) :: rest) = gateProj j rest := by
  simp [gateProj, List.filterMap_cons, h]

theorem values_append (l1 l2 : MStream α ε) :
    values (l1 ++ l2) = values l1 ++ values l2 := by
  rw [values, values, values, List.filterMap_append]

theorem values_cons_next (t : Nat) (a : α) (l : MStream α ε) :
    values ((t, Ev.next a) :: l) = a :: values l := rfl

theorem values_cons_error (t : Nat) (e : ε) (l : MStream α ε) :
    values ((t, Ev.error e) :: l) = values l := rfl

theorem values_cons_complete (t : Nat) (l : MStream α ε) :
    values ((t, Ev.complete) :: l) = values l := rfl

/-! ## Pass-through behaviour with zero gates -/

theorem runCL_no_gates :
    ∀ (p : MStream α ε) (s : CLSt α β),
      s.halted = false → s.gLatest = [] → s.gDone = [] →
      proper p = true →
      runCL s (tagPrim p) = p := by
  intro p
  induction p with
  | nil => intro s _ _ _ _; rfl
  | cons x rest ih =>
    intro s hh hgl hgd hp
    obtain ⟨t, e⟩ := x
    cases e with
    | next a =>
      have hc : s.gLatest.all Option.isSome = true := by rw [hgl]; rfl
      rw [tagPrim, List.map_cons, runCL_cons, stepCL_prim_next s hh, if_pos hc]
      have hrec := ih { s with pLatest := some a } hh hgl hgd (proper_tail hp)
      rw [tagPrim] at hrec
      show [(t, Ev.next a)] ++
        runCL { s with pLatest := some a }
          (rest.map (fun te => (te.1, Src.prim te.2))) = (t, Ev.next a) :: rest
      rw [hrec]
      rfl
    | error e =>
      have hrest : rest = [] := proper_terminal_head hp rfl
      subst hrest
      rw [tagPrim, List.map_cons, List.map_nil, runCL_cons,
          stepCL_prim_error s hh]
      rfl
    | complete =>
      have hrest : rest = [] := proper_terminal_head hp rfl
      subst hrest
      have hc : s.gDone.all id = true := by rw [hgd]; rfl
      rw [tagPrim, List.map_cons, List.map_nil, runCL_cons,
          stepCL_prim_complete s hh, if_pos hc]
      rfl

/-! ## Values forwarded once every gate is satisfied -/

theorem runCL_values_active :
    ∀ (evs : List (TEv α β ε)) (s : CLSt α β),
      s.halted = false →
      s.gLatest.all Option.isSome = true →
      proper (primProj evs) = true →
      (s.pDone = true → primProj evs = []) →
      (∀ t i b, (t, Src.gate i (Ev.next b)) ∉ evs) →
      (∀ t i e, (t, Src.gate i (Ev.error e)) ∉ evs) →
      values (runCL s evs) = values (primProj evs) := by
  intro evs
  induction evs with
  | nil => intro s _ _ _ _ _ _; rfl
  | cons te rest ih =>
    intro s hh hall hpp hpd hgn hge
    obtain ⟨t, src⟩ := te
    have hgn2 : ∀ t i b, (t, Src.gate (α := α) (ε := ε) i (Ev.next b)) ∉ rest :=
      fun t i b hm => hgn t i b (List.mem_cons_of_mem _ hm)
    have hge2 : ∀ t i e, (t, Src.gate (α := α) (β := β) i (Ev.error e)) ∉ rest :=
      fun t i e hm => hge t i e (List.mem_cons_of_mem _ hm)
    cases src with
    | prim e =>
      rw [primProj_cons_prim] at hpp hpd ⊢
      cases e with
      | next a =>
        rw [runCL_cons, stepCL_prim_next s hh, if_pos hall]
        have hpd2 : s.pDone = true → primProj rest = [] := by
          intro hc
          exact absurd (hpd hc) (List.cons_ne_nil _ _)
        have hrec := ih { s with pLatest := some a } hh hall (proper_tail hpp)
          hpd2 hgn2 hge2
        show values ([(t, Ev.next a)] ++ runCL { s with pLatest := some a } rest)
          = values ((t, Ev.next a) :: primProj rest)
        rw [values_append, hrec]
        rfl
      | error e =>
        rw [runCL_cons, stepCL_prim_error s hh]
        have hr0 : primProj rest = [] := proper_terminal_head hpp rfl
        show values ([(t, Ev.error e)] ++
          runCL { s with halted := true, failed := true } rest)
          = values ((t, Ev.error e) :: primProj rest)
        rw [runCL_halted _ rfl, hr0]
        rfl
      | complete =>
        rw [runCL_cons, stepCL_prim_complete s hh]
        have hr0 : primProj rest = [] := proper_terminal_head hpp rfl
        by_cases hdone : s.gDone.all id = true
        · rw [if_pos hdone]
          show values ([(t, Ev.complete)] ++
            runCL { s with pDone := true, halted := true } rest)
            = values ((t, Ev.complete) :: primProj rest)
          rw [runCL_halted _ rfl, hr0]
          rfl
        · rw [if_neg hdone]
          have hrec := ih { s with pDone := true } hh hall
            (by rw [hr0]; rfl) (fun _ => hr0) hgn2 hge2
          show values (([] : MStream α ε) ++ runCL { s with pDone := true } rest)
            = values ((t, Ev.complete) :: primProj rest)
          rw [List.nil_append, hrec, hr0]
          rfl
    | gate i e =>
      cases e with
      | next b => exact absurd (List.mem_cons_self _ _) (hgn t i b)
      | error e => exact absurd (List.mem_cons_self _ _) (hge t i e)
      | complete =>
        rw [primProj_cons_gate] at hpp hpd ⊢
        rw [runCL_cons, stepCL_gate_complete s hh]
        by_cases hdone : (s.pDone && (s.gDone.set i true).all id) = true
        · rw [if_pos hdone]
          have hpdt : s.pDone = true := (Bool.and_eq_true _ _).mp hdone |>.1
          show values ([(t, Ev.complete)] ++
            runCL { s with gDone := s.gDone.set i true, halted := true } rest)
            = values (primProj rest)
          rw [runCL_halted _ rfl, hpd hpdt]
          rfl
        · rw [if_neg hdone]
          have hrec := ih { s with gDone := s.gDone.set i true } hh hall hpp
            hpd hgn2 hge2
          show values (([] : MStream α ε) ++
            runCL { s with gDone := s.gDone.set i true } rest)
            = values (primProj rest)
          rw [List.nil_append, hrec]

theorem mem_gateProj {i u : Nat} {e : Ev β ε} {l : List (TEv α β ε)}
    (h : (u, Src.gate i e) ∈ l) : (u, e) ∈ gateProj i l := by
  rw [gateProj]
  exact List.mem_filterMap.mpr ⟨(u, Src.gate i e), h, by simp⟩

theorem gShapeB_next_tail {t : Nat} {b : β} {l : MStream β ε}
    (h : gShapeB ((t, Ev.next b) :: l) = true) :
    ∀ te ∈ l, te.2.isComplete = true := by
  intro te hte
  cases l with
  | nil => cases hte
  | cons y l2 =>
    obtain ⟨u, f⟩ := y
    cases l2 with
    | nil =>
      cases f with
      | next a => exact Bool.noConfusion h
      | error e => exact Bool.noConfusion h
      | complete =>
        rcases List.mem_cons.mp hte with rfl | h2
        · rfl
        · cases h2
    | cons z l3 => cases f <;> exact Bool.noConfusion h

theorem all_isSome_get {l : List (Option β)} (h : l.all Option.isSome = true)
    {i : Nat} (hi : i < l.length) : ∃ b, l[i]? = some (some b) := by
  have hmem : l[i] ∈ l := List.getElem_mem hi
  have hsome := List.all_eq_true.mp h _ hmem
  cases hget : l[i] with
  | none => rw [hget] at hsome; exact Bool.noConfusion hsome
  | some b => exact ⟨b, by rw [List.getElem?_eq_getElem hi, hget]⟩

theorem all_complete_no_next {i : Nat} {l : List (TEv α β ε)}
    (hc : ∀ te ∈ gateProj i l, te.2.isComplete = true) :
    ∀ u b, (u, Src.gate i (Ev.next b)) ∉ l := by
  intro u b hm
  have := hc (u, Ev.next b) (mem_gateProj hm)
  exact Bool.noConfusion this

theorem all_complete_no_error {i : Nat} {l : List (TEv α β ε)}
    (hc : ∀ te ∈ gateProj i l, te.2.isComplete = true) :
    ∀ u e, (u, Src.gate i (Ev.error e)) ∉ l := by
  intro u e hm
  have := hc (u, Ev.error e) (mem_gateProj hm)
  exact Bool.noConfusion this

/-! ## Values forwarded while some gate is still awaited

While at least one gate has not delivered its value, the subscriber
forwards some final segment of the primary's values: the pending latest
value (if the activation is triggered by the last gate) followed by all
later primary values. -/

theorem runCL_values_waiting :
    ∀ (evs : List (TEv α β ε)) (s : CLSt α β),
      s.halted = false →
      s.gLatest.all Option.isSome = false →
      proper (primProj evs) = true →
      (s.pDone = true → primProj evs = []) →
      (∀ i b, s.gLatest[i]? = some (some b) →
        ∀ te2 ∈ gateProj i evs, te2.2.isComplete = true) →
      (∀ i, gShapeB (gateProj i evs) = true) →
      (∀ u j e, (u, Src.gate j e) ∈ evs → j < s.gLatest.length) →
      ∃ k, values (runCL s evs) =
        (s.pLatest.toList ++ values (primProj evs)).drop k := by
  intro evs
  induction evs with
  | nil =>
    intro s _ _ _ _ _ _ _
    refine ⟨(s.pLatest.toList ++
      values (primProj ([] : List (TEv α β ε)))).length, ?_⟩
    exact (List.drop_length _).symm
  | cons te rest ih =>
    intro s hh hall hpp hpd hglat hsh hidx
    obtain ⟨t, src⟩ := te
    have hidx2 : ∀ u j e, (u, Src.gate (α := α) (ε := ε) j e) ∈ rest →
        j < s.gLatest.length :=
      fun u j e hm => hidx u j e (List.mem_cons_of_mem _ hm)
    cases src with
    | prim e =>
      rw [primProj_cons_prim] at hpp hpd ⊢
      have hglat2 : ∀ i b, s.gLatest[i]? = some (some b) →
          ∀ te2 ∈ gateProj i rest, te2.2.isComplete = true := by
        intro i b hib te2 hte2
        exact hglat i b hib te2 (by rw [gateProj_cons_prim]; exact hte2)
      have hsh2 : ∀ i, gShapeB (gateProj i rest) = true := by
        intro i
        have := hsh i
        rwa [gateProj_cons_prim] at this
      cases e with
      | next a =>
        have hcond : ¬(s.gLatest.all Option.isSome = true) := by
          rw [hall]; exact fun hc => Bool.noConfusion hc
        rw [runCL_cons, stepCL_prim_next s hh, if_neg hcond]
        have hpd2 : s.pDone = true → primProj rest = [] :=
          fun hc => absurd (hpd hc) (List.cons_ne_nil _ _)
        obtain ⟨k, hk⟩ := ih { s with pLatest := some a } hh hall
          (proper_tail hpp) hpd2 hglat2 hsh2 hidx2
        refine ⟨s.pLatest.toList.length + k, ?_⟩
        show values (([] : MStream α ε) ++
          runCL { s with pLatest := some a } rest) = _
        rw [List.nil_append, hk, values_cons_next,
          show (a :: values (primProj rest)) = [a] ++ values (primProj rest)
            from rfl,
          List.drop_append]
        rfl
      | error e =>
        rw [runCL_cons, stepCL_prim_error s hh]
        refine ⟨(s.pLatest.toList ++
          values ((t, Ev.error e) :: primProj rest)).length, ?_⟩
        show values ([(t, Ev.error e)] ++
          runCL { s with halted := true, failed := true } rest) = _
        rw [runCL_halted _ rfl]
        exact (List.drop_length _).symm
      | complete =>
        rw [runCL_cons, stepCL_prim_complete s hh]
        have hr0 : primProj rest = [] := proper_terminal_head hpp rfl
        by_cases hdone : s.gDone.all id = true
        · rw [if_pos hdone]
          refine ⟨(s.pLatest.toList ++
            values ((t, Ev.complete) :: primProj rest)).length, ?_⟩
          show values ([(t, Ev.complete)] ++
            runCL { s with pDone := true, halted := true } rest) = _
          rw [runCL_halted _ rfl]
          exact (List.drop_length _).symm
        · rw [if_neg hdone]
          obtain ⟨k, hk⟩ := ih { s with pDone := true } hh hall
            (by rw [hr0]; rfl) (fun _ => hr0) hglat2 hsh2 hidx2
          refine ⟨k, ?_⟩
          show values (([] : MStream α ε) ++
            runCL { s with pDone := true } rest) = _
          rw [List.nil_append, hk, values_cons_complete]
    | gate j e =>
      rw [primProj_cons_gate] at hpp hpd ⊢
      have hjlen : j < s.gLatest.length := hidx t j e (List.mem_cons_self _ _)
      cases e with
      | error e2 =>
        rw [runCL_cons, stepCL_gate_error s hh]
        refine ⟨(s.pLatest.toList ++ values (primProj rest)).length, ?_⟩
        show values ([(t, Ev.error e2)] ++
          runCL { s with halted := true, failed := true } rest) = _
        rw [runCL_halted _ rfl]
        exact (List.drop_length _).symm
      | complete =>
        rw [runCL_cons, stepCL_gate_complete s hh]
        by_cases hdone : (s.pDone && (s.gDone.set j true).all id) = true
        · rw [if_pos hdone]
          refine ⟨(s.pLatest.toList ++ values (primProj rest)).length, ?_⟩
          show values ([(t, Ev.complete)] ++
            runCL { s with gDone := s.gDone.set j true, halted := true }
              rest) = _
          rw [runCL_halted _ rfl]
          exact (List.drop_length _).symm
        · rw [if_neg hdone]
          have hglat2 : ∀ i b, s.gLatest[i]? = some (some b) →
              ∀ te2 ∈ gateProj i rest, te2.2.isComplete = true := by
            intro i b hib te2 hte2
            by_cases hij : j = i
            · subst hij
              exact hglat j b hib te2
                (by rw [gateProj_cons_gate_self]
                    exact List.mem_cons_of_mem _ hte2)
            · exact hglat i b hib te2
                (by rw [gateProj_cons_gate_ne hij]; exact hte2)
          have hsh2 : ∀ i, gShapeB (gateProj i rest) = true := by
            intro i
            by_cases hij : j = i
            · subst hij
              have := hsh j
              rw [gateProj_cons_gate_self] at this
              exact gShapeB_tail this
            · have := hsh i
              rwa [gateProj_cons_gate_ne hij] at this
          obtain ⟨k, hk⟩ := ih { s with gDone := s.gDone.set j true } hh hall
            hpp hpd hglat2 hsh2 hidx2
          refine ⟨k, ?_⟩
          show values (([] : MStream α ε) ++
            runCL { s with gDone := s.gDone.set j true } rest) = _
          rw [List.nil_append, hk]
      | next b =>
        have hglatNew : ∀ i b2,
            (s.gLatest.set j (some b))[i]? = some (some b2) →
            ∀ te2 ∈ gateProj i rest, te2.2.isComplete = true := by
          intro i b2 hib te2 hte2
          by_cases hij : j = i
          · subst hij
            have hshape := hsh j
            rw [gateProj_cons_gate_self] at hshape
            exact gShapeB_next_tail hshape te2 hte2
          · rw [List.getElem?_set, if_neg hij] at hib
            exact hglat i b2 hib te2
              (by rw [gateProj_cons_gate_ne hij]; exact hte2)
        have hsh2 : ∀ i, gShapeB (gateProj i rest) = true := by
          intro i
          by_cases hij : j = i
          · subst hij
            have := hsh j
            rw [gateProj_cons_gate_self] at this
            exact gShapeB_tail this
          · have := hsh i
            rwa [gateProj_cons_gate_ne hij] at this
        have hidx2b : ∀ u j2 e2, (u, Src.gate (α := α) (ε := ε) j2 e2) ∈ rest →
            j2 < (s.gLatest.set j (some b)).length := by
          intro u j2 e2 hm
          rw [List.length_set]
          exact hidx2 u j2 e2 hm
        by_cases hall2 : (s.gLatest.set j (some b)).all Option.isSome = true
        · have hnog : ∀ u i c, (u, Src.gate (α := α) (ε := ε) i (Ev.next c)) ∉
              rest := by
            intro u i c hm
            have hilen : i < (s.gLatest.set j (some b)).length := by
              rw [List.length_set]
              exact hidx2 u i (Ev.next c) hm
            obtain ⟨b2, hb2⟩ := all_isSome_get hall2 hilen
            exact all_complete_no_next (hglatNew i b2 hb2) u c hm
          have hnoge : ∀ u i c, (u, Src.gate (α := α) (β := β) i
              (Ev.error c)) ∉ rest := by
            intro u i c hm
            have hilen : i < (s.gLatest.set j (some b)).length := by
              rw [List.length_set]
              exact hidx2 u i (Ev.error c) hm
            obtain ⟨b2, hb2⟩ := all_isSome_get hall2 hilen
            exact all_complete_no_error (hglatNew i b2 hb2) u c hm
          cases hpl : s.pLatest with
          | some a =>
            rw [runCL_cons, stepCL_gate_next_some s hh t j b a hpl,
              if_pos hall2]
            have hB := runCL_values_active rest
              { s with gLatest := s.gLatest.set j (some b) } hh hall2 hpp hpd
              hnog hnoge
            refine ⟨0, ?_⟩
            show values ([(t, Ev.next a)] ++
              runCL { s with gLatest := s.gLatest.set j (some b) } rest) = _
            rw [values_append, hB, List.drop_zero]
            rfl
          | none =>
            rw [runCL_cons, stepCL_gate_next_none s hh t j b hpl]
            have hB := runCL_values_active rest
              { s with gLatest := s.gLatest.set j (some b) } hh hall2 hpp hpd
              hnog hnoge
            refine ⟨0, ?_⟩
            show values (([] : MStream α ε) ++
              runCL { s with gLatest := s.gLatest.set j (some b) } rest) = _
            rw [List.nil_append, hB, List.drop_zero]
            rfl
        · have hfalse : (s.gLatest.set j (some b)).all Option.isSome = false :=
            Bool.eq_false_iff.mpr hall2
          obtain ⟨k, hk⟩ := ih { s with gLatest := s.gLatest.set j (some b) }
            hh hfalse hpp hpd hglatNew hsh2 hidx2b
          cases hpl : s.pLatest with
          | some a =>
            rw [runCL_cons, stepCL_gate_next_some s hh t j b a hpl,
              if_neg hall2]
            refine ⟨k, ?_⟩
            show values (([] : MStream α ε) ++
              runCL { s with gLatest := s.gLatest.set j (some b) } rest) = _
            rw [hpl] at hk
            rw [List.nil_append, hpl, hk]
          | none =>
            rw [runCL_cons, stepCL_gate_next_none s hh t j b hpl]
            refine ⟨k, ?_⟩
            show values (([] : MStream α ε) ++
              runCL { s with gLatest := s.gLatest.set j (some b) } rest) = _
            rw [hpl] at hk
            rw [List.nil_append, hpl, hk]

/-! ## Top-level theorems for the claims about `waitUntil` values -/

/-- C1 counterexample: in the repository's own `waitUntil` test, the
output emits `y` at frame 6, yet the primary stream has no notification
at frame 6 at all — the combined event at frame 6 is triggered by gate
`a` belatedly satisfying its one-emission condition, not by the primary
stream producing a new value.  This refutes the claim that values are
forwarded only at combined events triggered by a new primary value. -/
theorem waitUntil_emission_without_new_primary_value :
    (waitUntil [aM, bM, cM] xM).filter (fun te => te.1 == 6) =
      [(6, Ev.next 'y')] ∧
    xM.filter (fun te => te.1 == 6) = [] := by
  constructor <;> rfl

/-- C1 (amended): for a proper primary stream, the sequence of values
forwarded by `waitUntil` is a final segment (suffix) of the sequence of
values produced by the primary: each forwarded value is a distinct
primary emission, forwarded in order and at most once.  In particular
the combinator never re-emits an already-forwarded value merely because
a gate belatedly satisfies its one-emission condition — the one
emission that does not coincide with a new primary value is the
activation emission, which forwards the still-pending (never yet
forwarded) latest primary value. -/
theorem waitUntil_forwards_value_suffix (p : MStream α ε)
    (gates : List (MStream β ε)) (hp : proper p = true) :
    ∃ k, values (waitUntil gates p) = (values p).drop k := by
  rw [waitUntil]
  have hpp : proper (primProj (merged p gates)) = true := by
    rw [primProj_merged]; exact hp
  have hidxm : ∀ (u j : Nat) (e : Ev β ε),
      (u, Src.gate j e) ∈ merged p gates → j < gates.length := by
    intro u j e hm
    rcases (mem_mergeT _ _ _).mp hm with h1 | h1
    · rcases List.mem_map.mp h1 with ⟨x, _, heq⟩
      cases heq
    · have := tagGates_idx gates 0 u j e h1
      omega
  cases gates with
  | nil =>
    refine ⟨0, ?_⟩
    show values (runCL (initSt 0) (merged p ([] : List (MStream β ε)))) =
      List.drop 0 (values p)
    rw [runCL_values_active (merged p []) (initSt 0) rfl rfl hpp
      (fun hc => Bool.noConfusion hc) ?_ ?_, primProj_merged, List.drop_zero]
    · intro u i b hm
      exact absurd (hidxm u i (Ev.next b) hm) (by simp)
    · intro u i e2 hm
      exact absurd (hidxm u i (Ev.error e2) hm) (by simp)
  | cons g0 gs =>
    have hall : ((initSt (g0 :: gs).length : CLSt α β)).gLatest.all
        Option.isSome = false := by
      show (List.replicate (g0 :: gs).length none).all Option.isSome = false
      rw [List.length_cons, List.replicate_succ]
      rfl
    have hglat : ∀ i b,
        ((initSt (g0 :: gs).length : CLSt α β)).gLatest[i]? =
          some (some b) →
        ∀ te2 ∈ gateProj i (merged p (g0 :: gs)),
          te2.2.isComplete = true := by
      intro i b hib
      rw [show ((initSt (g0 :: gs).length : CLSt α β)).gLatest =
        List.replicate (g0 :: gs).length none from rfl,
        List.getElem?_replicate] at hib
      by_cases hlt : i < (g0 :: gs).length
      · rw [if_pos hlt] at hib
        exact Option.noConfusion (Option.some_inj.mp hib)
      · rw [if_neg hlt] at hib
        exact Option.noConfusion hib
    have hsh : ∀ i, gShapeB (gateProj i (merged p (g0 :: gs))) = true := by
      intro i
      by_cases hlt : i < (g0 :: gs).length
      · rw [gateProj_merged_lt p _ (List.getElem?_eq_getElem hlt)]
        exact gShapeB_take1 _
      · rw [gateProj_merged_ge p _ (by omega)]
        rfl
    have hidxI : ∀ u j e, (u, Src.gate (α := α) (ε := ε) j e) ∈
        merged p (g0 :: gs) →
        j < ((initSt (g0 :: gs).length : CLSt α β)).gLatest.length := by
      intro u j e hm
      rw [show ((initSt (g0 :: gs).length : CLSt α β)).gLatest =
        List.replicate ((g0 :: gs).length) none from rfl,
        List.length_replicate]
      exact hidxm u j e hm
    obtain ⟨k, hk⟩ := runCL_values_waiting (merged p (g0 :: gs))
      (initSt (g0 :: gs).length) rfl hall hpp
      (fun hc => Bool.noConfusion hc) hglat hsh hidxI
    refine ⟨k, ?_⟩
    rw [hk, primProj_merged]
    rfl

/-- C1 witness: the suffix theorem instantiated on the repository's own
test marbles, where the hypothesis holds and the forwarded values
`[y, z]` are the final segment of the primary's values `[x, y, z]`. -/
theorem waitUntil_forwards_value_suffix_witness :
    proper xM = true ∧
    ∃ k, values (waitUntil [aM, bM, cM] xM) = (values xM).drop k :=
  ⟨rfl, waitUntil_forwards_value_suffix xM [aM, bM, cM] rfl⟩

/-- C2: the repository's marble test for `waitUntil`: primary
`-x-y-----z|` with gates `------a|`, `b|`, `--c|` yields `------y--z|` —
`y` at frame 6 (once the slowest gate fires), `z` at frame 9, completion
at frame 10. -/
theorem waitUntil_marble_example :
    waitUntil [aM, bM, cM] xM =
      [(6, Ev.next 'y'), (9, Ev.next 'z'), (10, Ev.complete)] := by
  rfl

theorem mergeT_nil_right (xs : List (TEv α β ε)) : mergeT xs [] = xs := by
  cases xs with
  | nil => exact mergeT_nil_left []
  | cons x xs => exact mergeT_cons_nil x xs

/-- C9: `waitUntil` applied with an empty list of gate streams is an
identity: the output stream has exactly the primary's notifications at
the same frames — the same values, the same completion or error. -/
theorem waitUntil_zero_gates_identity (p : MStream α ε)
    (hp : proper p = true) :
    waitUntil ([] : List (MStream β ε)) p = p := by
  rw [waitUntil, merged,
    show (tagGates 0 ([] : List (MStream β ε)) : List (TEv α β ε)) = []
      from rfl,
    mergeT_nil_right]
  exact runCL_no_gates p (initSt 0) rfl rfl rfl hp

/-- C9 witness: the identity applied to the test's primary marble. -/
theorem waitUntil_zero_gates_identity_witness :
    proper xM = true ∧ waitUntil ([] : List (MStream Char Nat)) xM = xM :=
  ⟨rfl, waitUntil_zero_gates_identity xM rfl⟩

/-! ## Gating: no forwarding before every gate has emitted -/

theorem runCL_next_requires_gates (G : Nat → Nat → Prop) :
    ∀ (evs : List (TEv α β ε)) (s : CLSt α β),
      List.Pairwise (fun (a b : TEv α β ε) => a.1 ≤ b.1) evs →
      (∀ i b, s.gLatest[i]? = some (some b) →
        ∃ t2, G i t2 ∧ ∀ te ∈ evs, t2 ≤ te.1) →
      (∀ u i b, (u, Src.gate i (Ev.next b)) ∈ evs → G i u) →
      ∀ t v, (t, Ev.next v) ∈ runCL s evs →
        ∀ i, i < s.gLatest.length → ∃ t2 ≤ t, G i t2 := by
  intro evs
  induction evs with
  | nil => intro s _ _ _ t v hmem; cases hmem
  | cons te rest ih =>
    intro s hsort hst hevs t v hmem i hilen
    obtain ⟨t0, src⟩ := te
    have hsort2 : List.Pairwise (fun (a b : TEv α β ε) => a.1 ≤ b.1) rest :=
      hsort.of_cons
    have hhead : ∀ te2 ∈ rest, t0 ≤ te2.1 :=
      (List.pairwise_cons.mp hsort).1
    have hevs2 : ∀ u i2 b, (u, Src.gate (α := α) (ε := ε) i2 (Ev.next b)) ∈
        rest → G i2 u :=
      fun u i2 b hm => hevs u i2 b (List.mem_cons_of_mem _ hm)
    by_cases hh : s.halted = true
    · rw [runCL_cons, stepCL_of_halted s hh] at hmem
      have hst2 : ∀ i2 b, s.gLatest[i2]? = some (some b) →
          ∃ t2, G i2 t2 ∧ ∀ te2 ∈ rest, t2 ≤ te2.1 := by
        intro i2 b hib
        obtain ⟨t2, hG, hb⟩ := hst i2 b hib
        exact ⟨t2, hG, fun te2 hm => hb te2 (List.mem_cons_of_mem _ hm)⟩
      exact ih s hsort2 hst2 hevs2 t v (by simpa using hmem) i hilen
    · have hh2 : s.halted = false := Bool.eq_false_iff.mpr hh
      cases src with
      | prim e =>
        have hst2 : ∀ i2 b, s.gLatest[i2]? = some (some b) →
            ∃ t2, G i2 t2 ∧ ∀ te2 ∈ rest, t2 ≤ te2.1 := by
          intro i2 b hib
          obtain ⟨t2, hG, hb⟩ := hst i2 b hib
          exact ⟨t2, hG, fun te2 hm => hb te2 (List.mem_cons_of_mem _ hm)⟩
        cases e with
        | next a =>
          rw [runCL_cons, stepCL_prim_next s hh2] at hmem
          by_cases hall : s.gLatest.all Option.isSome = true
          · rw [if_pos hall] at hmem
            rcases List.mem_append.mp hmem with hl | hr
            · rcases List.mem_singleton.mp hl with heq
              obtain ⟨b, hb⟩ := all_isSome_get hall hilen
              obtain ⟨t2, hG, hbound⟩ := hst i b hb
              have ht : t = t0 := congrArg Prod.fst heq
              subst ht
              exact ⟨t2, hbound _ (List.mem_cons_self _ _), hG⟩
            · exact ih { s with pLatest := some a } hsort2 hst2 hevs2
                t v hr i hilen
          · rw [if_neg hall] at hmem
            exact ih { s with pLatest := some a } hsort2 hst2 hevs2
              t v (by simpa using hmem) i hilen
        | error e =>
          rw [runCL_cons, stepCL_prim_error s hh2] at hmem
          rw [runCL_halted _ rfl] at hmem
          simp at hmem
        | complete =>
          rw [runCL_cons, stepCL_prim_complete s hh2] at hmem
          by_cases hdone : s.gDone.all id = true
          · rw [if_pos hdone] at hmem
            rw [runCL_halted _ rfl] at hmem
            simp at hmem
          · rw [if_neg hdone] at hmem
            exact ih { s with pDone := true } hsort2 hst2 hevs2
              t v (by simpa using hmem) i hilen
      | gate j e =>
        cases e with
        | next b =>
          have hjG : G j t0 := hevs t0 j b (List.mem_cons_self _ _)
          have hst2 : ∀ i2 b2,
              (s.gLatest.set j (some b))[i2]? = some (some b2) →
              ∃ t2, G i2 t2 ∧ ∀ te2 ∈ rest, t2 ≤ te2.1 := by
            intro i2 b2 hib
            rw [List.getElem?_set] at hib
            by_cases hij : j = i2
            · subst hij
              exact ⟨t0, hjG, hhead⟩
            · rw [if_neg hij] at hib
              obtain ⟨t2, hG, hb⟩ := hst i2 b2 hib
              exact ⟨t2, hG, fun te2 hm => hb te2 (List.mem_cons_of_mem _ hm)⟩
          have hlen2 : i < (s.gLatest.set j (some b)).length := by
            rw [List.length_set]; exact hilen
          cases hpl : s.pLatest with
          | some a =>
            rw [runCL_cons, stepCL_gate_next_some s hh2 t0 j b a hpl] at hmem
            by_cases hall2 : (s.gLatest.set j (some b)).all Option.isSome =
                true
            · rw [if_pos hall2] at hmem
              rcases List.mem_append.mp hmem with hl | hr
              · rcases List.mem_singleton.mp hl with heq
                have ht : t = t0 := congrArg Prod.fst heq
                subst ht
                obtain ⟨b2, hb2⟩ := all_isSome_get hall2 hlen2
                obtain ⟨t2, hG, hbound⟩ := hst2 i b2 hb2
                by_cases hij : j = i
                · subst hij
                  exact ⟨t, le_refl t, hjG⟩
                · rw [List.getElem?_set, if_neg hij] at hb2
                  obtain ⟨t3, hG3, hb3⟩ := hst i b2 hb2
                  exact ⟨t3, hb3 _ (List.mem_cons_self _ _), hG3⟩
              · exact ih { s with gLatest := s.gLatest.set j (some b) }
                  hsort2 hst2 hevs2 t v hr i hlen2
            · rw [if_neg hall2] at hmem
              exact ih { s with gLatest := s.gLatest.set j (some b) }
                hsort2 hst2 hevs2 t v (by simpa using hmem) i hlen2
          | none =>
            rw [runCL_cons, stepCL_gate_next_none s hh2 t0 j b hpl] at hmem
            exact ih { s with gLatest := s.gLatest.set j (some b) }
              hsort2 hst2 hevs2 t v (by simpa using hmem) i hlen2
        | error e2 =>
          rw [runCL_cons, stepCL_gate_error s hh2] at hmem
          rw [runCL_halted _ rfl] at hmem
          simp at hmem
        | complete =>
          have hst2 : ∀ i2 b, s.gLatest[i2]? = some (some b) →
              ∃ t2, G i2 t2 ∧ ∀ te2 ∈ rest, t2 ≤ te2.1 := by
            intro i2 b hib
            obtain ⟨t2, hG, hb⟩ := hst i2 b hib
            exact ⟨t2, hG, fun te2 hm => hb te2 (List.mem_cons_of_mem _ hm)⟩
          rw [runCL_cons, stepCL_gate_complete s hh2] at hmem
          by_cases hdone : (s.pDone && (s.gDone.set j true).all id) = true
          · rw [if_pos hdone] at hmem
            rw [runCL_halted _ rfl] at hmem
            simp at hmem
          · rw [if_neg hdone] at hmem
            exact ih { s with gDone := s.gDone.set j true } hsort2 hst2 hevs2
              t v (by simpa using hmem) i hilen

theorem merged_gate_idx (p : MStream α ε) (gates : List (MStream β ε)) :
    ∀ (u j : Nat) (e : Ev β ε),
      (u, Src.gate j e) ∈ merged p gates → j < gates.length := by
  intro u j e hm
  rcases (mem_mergeT _ _ _).mp hm with h1 | h1
  · rcases List.mem_map.mp h1 with ⟨x, _, heq⟩
    cases heq
  · have := tagGates_idx gates 0 u j e h1
    omega

/-- C3: `waitUntil` forwards no primary value before every gate has
emitted at least once: every forwarded value at frame `t` is preceded
(at some frame `t2 ≤ t`) by a first emission of every gate.  The gating
condition quantifies only over membership in the gate list — it is
order-independent, as the second conjunct makes explicit for every
permutation of the gates. -/
theorem waitUntil_no_forwarding_before_gates (p : MStream α ε)
    (gates : List (MStream β ε)) (hp : chrono p) (hne : gates ≠ [])
    (t : Nat) (v : α)
    (hmem : (t, Ev.next v) ∈ waitUntil gates p) :
    (∀ g ∈ gates, ∃ t2 ≤ t, ∃ w, (t2, Ev.next w) ∈ g) ∧
    (∀ gates2 : List (MStream β ε), gates2.Perm gates →
      ∀ g ∈ gates2, ∃ t2 ≤ t, ∃ w, (t2, Ev.next w) ∈ g) := by
  have hmain : ∀ g ∈ gates, ∃ t2 ≤ t, ∃ w, (t2, Ev.next w) ∈ g := by
    intro g hg
    obtain ⟨i, hi, heq⟩ := List.getElem_of_mem hg
    have hG := runCL_next_requires_gates
      (fun i2 t2 => ∃ g2 w, gates[i2]? = some g2 ∧
        (t2, Ev.next (ε := ε) w) ∈ take1 g2)
      (merged p gates) (initSt gates.length)
      (sorted_merged gates hp)
      (by
        intro i2 b hib
        rw [show ((initSt gates.length : CLSt α β)).gLatest =
          List.replicate gates.length none from rfl,
          List.getElem?_replicate] at hib
        by_cases hlt : i2 < gates.length
        · rw [if_pos hlt] at hib
          exact Option.noConfusion (Option.some_inj.mp hib)
        · rw [if_neg hlt] at hib
          exact Option.noConfusion hib)
      (by
        intro u i2 b hm
        have hlt : i2 < gates.length := merged_gate_idx p gates u i2 _ hm
        have hmp := mem_gateProj hm
        rw [gateProj_merged_lt p gates (List.getElem?_eq_getElem hlt)] at hmp
        exact ⟨gates[i2], b, List.getElem?_eq_getElem hlt, hmp⟩)
      t v hmem i
      (by
        rw [show ((initSt gates.length : CLSt α β)).gLatest =
          List.replicate gates.length none from rfl, List.length_replicate]
        exact hi)
    obtain ⟨t2, ht2, g2, w, hg2, hmt⟩ := hG
    rw [List.getElem?_eq_getElem hi, heq] at hg2
    obtain rfl : g2 = g := Option.some_inj.mp hg2.symm
    exact ⟨t2, ht2, w, take1_next_mem hmt⟩
  exact ⟨hmain, fun gates2 hperm g hg => hmain g (hperm.mem_iff.mp hg)⟩

/-- C3 witness: on the test marbles, the forwarded value `y` at frame 6
is preceded by a first emission of each gate `------a|`, `b|`, `--c|` at
frames 6, 0, 2 respectively. -/
theorem waitUntil_no_forwarding_before_gates_witness :
    chrono xM ∧ ([aM, bM, cM] : List (MStream Char Nat)) ≠ [] ∧
    (6, Ev.next 'y') ∈ waitUntil [aM, bM, cM] xM ∧
    (∃ t2 ≤ 6, ∃ w, (t2, Ev.next w) ∈ aM) :=
  ⟨by decide, by simp, by decide,
    (waitUntil_no_forwarding_before_gates xM [aM, bM, cM] (by decide)
      (by simp) 6 'y' (by decide)).1 aM (by simp)⟩

theorem all_true_get {l : List Bool} (h : l.all id = true)
    {i : Nat} (hi : i < l.length) : l[i]? = some true := by
  have hmem : l[i] ∈ l := List.getElem_mem hi
  have htrue := List.all_eq_true.mp h _ hmem
  rw [List.getElem?_eq_getElem hi]
  rw [show id l[i] = l[i] from rfl] at htrue
  rw [htrue]

theorem mem_primProj {u : Nat} {e : Ev α ε} {l : List (TEv α β ε)}
    (h : (u, Src.prim e) ∈ l) : (u, e) ∈ primProj l := by
  rw [primProj]
  exact List.mem_filterMap.mpr ⟨(u, Src.prim e), h, rfl⟩

/-! ## Error propagation: the output fails exactly at the first error of
the combined timeline -/

theorem runCL_error_characterization :
    ∀ (evs : List (TEv α β ε)) (s : CLSt α β),
      s.halted = false →
      proper (primProj evs) = true →
      (s.pDone = true → primProj evs = []) →
      (∀ i, s.gDone[i]? = some true → gateProj i evs = []) →
      (∀ i, gShapeB (gateProj i evs) = true) →
      (∀ u j e, (u, Src.gate j e) ∈ evs → j < s.gDone.length) →
      (∀ (t : Nat) (e : ε), firstErr evs = some (t, e) →
        ∃ pre, runCL s evs = pre ++ [(t, Ev.error e)] ∧
          (∀ u f, (u, Ev.error f) ∉ pre)) ∧
      (firstErr evs = none →
        ∀ u f, (u, Ev.error f) ∉ runCL s evs) := by
  intro evs
  induction evs with
  | nil =>
    intro s _ _ _ _ _ _
    exact ⟨fun t e h => Option.noConfusion h, fun _ u f h => List.not_mem_nil _ h⟩
  | cons te rest ih =>
    intro s hh hpp hpd hgd hsh hidx
    obtain ⟨t0, src⟩ := te
    have hidx2 : ∀ u j e, (u, Src.gate (α := α) (ε := ε) j e) ∈ rest →
        j < s.gDone.length :=
      fun u j e hm => hidx u j e (List.mem_cons_of_mem _ hm)
    cases src with
    | prim e =>
      rw [primProj_cons_prim] at hpp hpd
      cases e with
      | next a =>
        have hpd2 : s.pDone = true → primProj rest = [] :=
          fun hc => absurd (hpd hc) (List.cons_ne_nil _ _)
        have hres := ih { s with pLatest := some a } hh (proper_tail hpp)
          hpd2 hgd (fun i => by
            have := hsh i
            rwa [gateProj_cons_prim] at this) hidx2
        rw [runCL_cons, stepCL_prim_next s hh]
        constructor
        · intro t e hfe
          obtain ⟨pre, hpre, hnoe⟩ := hres.1 t e hfe
          by_cases hall : s.gLatest.all Option.isSome = true
          · rw [if_pos hall]
            refine ⟨(t0, Ev.next a) :: pre, ?_, ?_⟩
            · show (t0, Ev.next a) :: runCL { s with pLatest := some a }
                rest = _
              rw [hpre]
              rfl
            · intro u f hm
              rcases List.mem_cons.mp hm with heq | hm2
              · cases heq
              · exact hnoe u f hm2
          · rw [if_neg hall]
            refine ⟨pre, ?_, hnoe⟩
            show (([] : MStream α ε) ++
              runCL { s with pLatest := some a } rest) = _
            rw [List.nil_append, hpre]
        · intro hfe u f hm
          by_cases hall : s.gLatest.all Option.isSome = true
          · rw [if_pos hall] at hm
            rcases List.mem_append.mp hm with hl | hr
            · rcases List.mem_singleton.mp hl with heq
              cases heq
            · exact hres.2 hfe u f hr
          · rw [if_neg hall] at hm
            exact hres.2 hfe u f (by simpa using hm)
      | error e0 =>
        rw [runCL_cons, stepCL_prim_error s hh]
        constructor
        · intro t e hfe
          have heq : ((t0, e0) : Nat × ε) = (t, e) := Option.some_inj.mp hfe
          obtain ⟨rfl, rfl⟩ : t0 = t ∧ e0 = e :=
            ⟨congrArg Prod.fst heq, congrArg Prod.snd heq⟩
          refine ⟨[], ?_, fun u f hm => List.not_mem_nil _ hm⟩
          show [(t0, Ev.error e0)] ++
            runCL { s with halted := true, failed := true } rest = _
          rw [runCL_halted _ rfl]
          rfl
        · intro hfe
          exact Option.noConfusion hfe
      | complete =>
        have hr0 : primProj rest = [] := proper_terminal_head hpp rfl
        rw [runCL_cons, stepCL_prim_complete s hh]
        by_cases hdone : s.gDone.all id = true
        · rw [if_pos hdone]
          have hnoerr : ∀ (t : Nat) (e : ε), firstErr rest = some (t, e) →
              False := by
            intro t e hfe
            rcases firstErr_mem rest t e hfe with hprim | ⟨i2, hgate⟩
            · have := mem_primProj hprim
              rw [hr0] at this
              exact List.not_mem_nil _ this
            · have hlt : i2 < s.gDone.length :=
                hidx2 t i2 (Ev.error e) hgate
              have hgdi := hgd i2 (all_true_get hdone hlt)
              have := mem_gateProj hgate
              rw [show gateProj i2 ((t0, Src.prim Ev.complete) :: rest) =
                gateProj i2 rest from rfl] at hgdi
              rw [hgdi] at this
              exact List.not_mem_nil _ this
          constructor
          · intro t e hfe
            exact absurd hfe (fun h => hnoerr t e h)
          · intro hfe u f hm
            rw [runCL_halted _ rfl] at hm
            rcases List.mem_append.mp hm with hl | hr
            · rcases List.mem_singleton.mp hl with heq
              cases heq
            · exact List.not_mem_nil _ hr
        · rw [if_neg hdone]
          have hres := ih { s with pDone := true } hh (by rw [hr0]; rfl)
            (fun _ => hr0) hgd (fun i => by
              have := hsh i
              rwa [gateProj_cons_prim] at this) hidx2
          constructor
          · intro t e hfe
            obtain ⟨pre, hpre, hnoe⟩ := hres.1 t e hfe
            refine ⟨pre, ?_, hnoe⟩
            show (([] : MStream α ε) ++
              runCL { s with pDone := true } rest) = _
            rw [List.nil_append, hpre]
          · intro hfe u f hm
            exact hres.2 hfe u f (by simpa using hm)
    | gate j e =>
      have hjlen : j < s.gDone.length := hidx t0 j e (List.mem_cons_self _ _)
      rw [primProj_cons_gate] at hpp hpd
      cases e with
      | next b =>
        have hgd2 : ∀ i, s.gDone[i]? = some true → gateProj i rest = [] := by
          intro i hib
          by_cases hij : j = i
          · subst hij
            have := hgd j hib
            rw [gateProj_cons_gate_self] at this
            exact absurd this (List.cons_ne_nil _ _)
          · have := hgd i hib
            rwa [gateProj_cons_gate_ne hij] at this
        have hsh2 : ∀ i, gShapeB (gateProj i rest) = true := by
          intro i
          by_cases hij : j = i
          · subst hij
            have := hsh j
            rw [gateProj_cons_gate_self] at this
            exact gShapeB_tail this
          · have := hsh i
            rwa [gateProj_cons_gate_ne hij] at this
        have hres := ih { s with gLatest := s.gLatest.set j (some b) } hh
          hpp hpd hgd2 hsh2 hidx2
        cases hpl : s.pLatest with
        | some a =>
          rw [runCL_cons, stepCL_gate_next_some s hh t0 j b a hpl]
          constructor
          · intro t e hfe
            obtain ⟨pre, hpre, hnoe⟩ := hres.1 t e hfe
            by_cases hall : (s.gLatest.set j (some b)).all Option.isSome =
                true
            · rw [if_pos hall]
              refine ⟨(t0, Ev.next a) :: pre, ?_, ?_⟩
              · show (t0, Ev.next a) ::
                  runCL { s with gLatest := s.gLatest.set j (some b) }
                    rest = _
                rw [hpre]
                rfl
              · intro u f hm
                rcases List.mem_cons.mp hm with heq | hm2
                · cases heq
                · exact hnoe u f hm2
            · rw [if_neg hall]
              refine ⟨pre, ?_, hnoe⟩
              show (([] : MStream α ε) ++
                runCL { s with gLatest := s.gLatest.set j (some b) }
                  rest) = _
              rw [List.nil_append, hpre]
          · intro hfe u f hm
            by_cases hall : (s.gLatest.set j (some b)).all Option.isSome =
                true
            · rw [if_pos hall] at hm
              rcases List.mem_append.mp hm with hl | hr
              · rcases List.mem_singleton.mp hl with heq
                cases heq
              · exact hres.2 hfe u f hr
            · rw [if_neg hall] at hm
              exact hres.2 hfe u f (by simpa using hm)
        | none =>
          rw [runCL_cons, stepCL_gate_next_none s hh t0 j b hpl]
          constructor
          · intro t e hfe
            obtain ⟨pre, hpre, hnoe⟩ := hres.1 t e hfe
            refine ⟨pre, ?_, hnoe⟩
            show (([] : MStream α ε) ++
              runCL { s with gLatest := s.gLatest.set j (some b) } rest) = _
            rw [List.nil_append, hpre]
          · intro hfe u f hm
            exact hres.2 hfe u f (by simpa using hm)
      | error e0 =>
        rw [runCL_cons, stepCL_gate_error s hh]
        constructor
        · intro t e hfe
          have heq : ((t0, e0) : Nat × ε) = (t, e) := Option.some_inj.mp hfe
          obtain ⟨rfl, rfl⟩ : t0 = t ∧ e0 = e :=
            ⟨congrArg Prod.fst heq, congrArg Prod.snd heq⟩
          refine ⟨[], ?_, fun u f hm => List.not_mem_nil _ hm⟩
          show [(t0, Ev.error e0)] ++
            runCL { s with halted := true, failed := true } rest = _
          rw [runCL_halted _ rfl]
          rfl
        · intro hfe
          exact Option.noConfusion hfe
      | complete =>
        rw [runCL_cons, stepCL_gate_complete s hh]
        by_cases hdone : (s.pDone && (s.gDone.set j true).all id) = true
        · rw [if_pos hdone]
          have hpdt : s.pDone = true := ((Bool.and_eq_true _ _).mp hdone).1
          have hallt : (s.gDone.set j true).all id = true :=
            ((Bool.and_eq_true _ _).mp hdone).2
          have hnoerr : ∀ (t : Nat) (e : ε), firstErr rest = some (t, e) →
              False := by
            intro t e hfe
            rcases firstErr_mem rest t e hfe with hprim | ⟨i2, hgate⟩
            · have := mem_primProj hprim
              rw [hpd hpdt] at this
              exact List.not_mem_nil _ this
            · have hlt : i2 < s.gDone.length :=
                hidx2 t i2 (Ev.error e) hgate
            
              have hlt2 : i2 < (s.gDone.set j true).length := by
                rw [List.length_set]; exact hlt
              have hset := all_true_get hallt hlt2
              have hmm := mem_gateProj hgate
              by_cases hij : j = i2
              · subst hij
                have := hsh j
                rw [gateProj_cons_gate_self] at this
                cases hq : gateProj j rest with
                | nil => rw [hq] at hmm; exact List.not_mem_nil _ hmm
                | cons z zs =>
                  rw [hq] at this
                  obtain ⟨u2, f2⟩ := z
                  cases f2 <;> cases zs <;> exact Bool.noConfusion this
              · rw [List.getElem?_set, if_neg hij] at hset
                have hgdi := hgd i2 hset
                rw [gateProj_cons_gate_ne hij] at hgdi
                rw [hgdi] at hmm
                exact List.not_mem_nil _ hmm
          constructor
          · intro t e hfe
            exact absurd hfe (fun h => hnoerr t e h)
          · intro hfe u f hm
            rw [runCL_halted _ rfl] at hm
            rcases List.mem_append.mp hm with hl | hr
            · rcases List.mem_singleton.mp hl with heq
              cases heq
            · exact List.not_mem_nil _ hr
        · rw [if_neg hdone]
          have hgd2 : ∀ i, (s.gDone.set j true)[i]? = some true →
              gateProj i rest = [] := by
            intro i hib
            by_cases hij : j = i
            · subst hij
              have := hsh j
              rw [gateProj_cons_gate_self] at this
              cases hq : gateProj j rest with
              | nil => rfl
              | cons z zs =>
                rw [hq] at this
                obtain ⟨u2, f2⟩ := z
                exact absurd this
                  (by cases f2 <;> cases zs <;>
                    exact fun hc => Bool.noConfusion hc)
            · rw [List.getElem?_set, if_neg hij] at hib
              have := hgd i hib
              rwa [gateProj_cons_gate_ne hij] at this
          have hsh2 : ∀ i, gShapeB (gateProj i rest) = true := by
            intro i
            by_cases hij : j = i
            · subst hij
              have := hsh j
              rw [gateProj_cons_gate_self] at this
              exact gShapeB_tail this
            · have := hsh i
              rwa [gateProj_cons_gate_ne hij] at this
          have hidx2b : ∀ u j2 e2,
              (u, Src.gate (α := α) (ε := ε) j2 e2) ∈ rest →
              j2 < (s.gDone.set j true).length := by
            intro u j2 e2 hm
            rw [List.length_set]
            exact hidx2 u j2 e2 hm
          have hres := ih { s with gDone := s.gDone.set j true } hh hpp hpd
            hgd2 hsh2 hidx2b
          constructor
          · intro t e hfe
            obtain ⟨pre, hpre, hnoe⟩ := hres.1 t e hfe
            refine ⟨pre, ?_, hnoe⟩
            show (([] : MStream α ε) ++
              runCL { s with gDone := s.gDone.set j true } rest) = _
            rw [List.nil_append, hpre]
          · intro hfe u f hm
            exact hres.2 hfe u f (by simpa using hm)

/-- C6 counterexample: a gate that raises an error after its first
emission does not fail the output.  The gate emits `b` at frame 0 and
errors with code 7 at frame 3; `take(1)` has already released the gate
subscription, so the output simply forwards the primary (`x` at frame 1)
and completes at frame 2 — no error notification is ever delivered.
This refutes the claim that an error of any gate stream fails the
output with that same error. -/
theorem waitUntil_gate_error_after_emission_not_propagated :
    waitUntil [([(0, Ev.next 'b'), (3, Ev.error 7)] : MStream Char Nat)]
        ([(1, Ev.next 'x'), (2, Ev.complete)] : MStream Char Nat) =
      [(1, Ev.next 'x'), (2, Ev.complete)] ∧
    (3, Ev.error 7) ∈ ([(0, Ev.next 'b'), (3, Ev.error 7)] :
      MStream Char Nat) := by
  constructor
  · rfl
  · simp

/-- C6 (amended): the output of `waitUntil` fails exactly at the first
error of the combined subscription — an error of the primary stream at
any time, or of a gate before its first emission (errors surviving the
gate's `take(1)` projection).  It fails with that same error, at its
frame, and delivers nothing after it.  A gate error at or after the
gate's first emission is never observed, because the gate subscription
is released at the first emission. -/
theorem waitUntil_error_characterization (p : MStream α ε)
    (gates : List (MStream β ε)) (hp : proper p = true) (t : Nat) (e : ε) :
    ((t, Ev.error e) ∈ waitUntil gates p ↔
      firstErr (merged p gates) = some (t, e)) ∧
    (firstErr (merged p gates) = some (t, e) →
      ((t, Ev.error e) ∈ p ∨ ∃ g ∈ gates, (t, Ev.error e) ∈ take1 g)) ∧
    ((t, Ev.error e) ∈ waitUntil gates p →
      ∃ pre, waitUntil gates p = pre ++ [(t, Ev.error e)] ∧
        ∀ u f, (u, Ev.error f) ∉ pre) := by
  have hchar := runCL_error_characterization (merged p gates)
    (initSt gates.length) rfl
    (by rw [primProj_merged]; exact hp)
    (fun hc => Bool.noConfusion hc)
    (by
      intro i hib
      rw [show ((initSt gates.length : CLSt α β)).gDone =
        List.replicate gates.length false from rfl,
        List.getElem?_replicate] at hib
      by_cases hlt : i < gates.length
      · rw [if_pos hlt] at hib
        exact Bool.noConfusion (Option.some_inj.mp hib)
      · rw [if_neg hlt] at hib
        exact Option.noConfusion hib)
    (by
      intro i
      by_cases hlt : i < gates.length
      · rw [gateProj_merged_lt p gates (List.getElem?_eq_getElem hlt)]
        exact gShapeB_take1 _
      · rw [gateProj_merged_ge p gates (by omega)]
        rfl)
    (by
      intro u j e2 hm
      rw [show ((initSt gates.length : CLSt α β)).gDone =
        List.replicate gates.length false from rfl, List.length_replicate]
      exact merged_gate_idx p gates u j e2 hm)
  have hfwd : (t, Ev.error e) ∈ waitUntil gates p →
      firstErr (merged p gates) = some (t, e) := by
    intro hmem
    cases hfe : firstErr (merged p gates) with
    | none => exact absurd hmem (hchar.2 hfe t e)
    | some te2 =>
      obtain ⟨t2, e2⟩ := te2
      obtain ⟨pre, hpre, hnoe⟩ := hchar.1 t2 e2 hfe
      have hmem2 : (t, Ev.error e) ∈ pre ++ [(t2, Ev.error e2)] := by
        rw [← hpre]
        exact hmem
      rcases List.mem_append.mp hmem2 with hl | hr
      · exact absurd hl (hnoe t e)
      · rcases List.mem_singleton.mp hr with heq
        have ht : t = t2 := congrArg Prod.fst heq
        have he : Ev.error (α := α) e = Ev.error e2 := congrArg Prod.snd heq
        obtain rfl : e = e2 := by cases he; rfl
        rw [ht]
  refine ⟨⟨hfwd, ?_⟩, ?_, ?_⟩
  · intro hfe
    obtain ⟨pre, hpre, _⟩ := hchar.1 t e hfe
    show (t, Ev.error e) ∈ runCL (initSt gates.length) (merged p gates)
    rw [hpre]
    exact List.mem_append.mpr (Or.inr (List.mem_singleton.mpr rfl))
  · intro hfe
    rcases firstErr_mem (merged p gates) t e hfe with hprim | ⟨i, hgate⟩
    · left
      have := mem_primProj hprim
      rwa [primProj_merged] at this
    · right
      have hlt : i < gates.length :=
        merged_gate_idx p gates t i (Ev.error e) hgate
      have hmp := mem_gateProj hgate
      rw [gateProj_merged_lt p gates (List.getElem?_eq_getElem hlt)] at hmp
      exact ⟨gates[i], List.getElem_mem hlt, hmp⟩
  · intro hmem
    exact hchar.1 t e (hfwd hmem)

/-- C6 witness: a gate erroring with code 5 at frame 2 before any
emission fails the output at frame 2 with error 5. -/
theorem waitUntil_error_characterization_witness :
    proper xM = true ∧
    ((2, Ev.error 5) ∈ waitUntil [([(2, Ev.error 5)] : MStream Char Nat)] xM
      ↔ firstErr (merged xM [([(2, Ev.error 5)] : MStream Char Nat)]) =
          some (2, 5)) :=
  ⟨rfl,
    (waitUntil_error_characterization xM [[(2, Ev.error 5)]] rfl 2 5).1⟩

/-! ## The conceptual state machine of a `waitUntil` instance -/

theorem foldSt_cons (s : CLSt α β) (te : TEv α β ε)
    (evs : List (TEv α β ε)) :
    foldSt s (te :: evs) = foldSt (stepCL s te).1 evs := rfl

theorem foldSt_halted :
    ∀ (evs : List (TEv α β ε)) (s : CLSt α β),
      s.halted = true → foldSt s evs = s := by
  intro evs
  induction evs with
  | nil => intro s _; rfl
  | cons te rest ih =>
    intro s hh
    rw [foldSt_cons, stepCL_of_halted s hh]
    exact ih s hh

theorem foldSt_halted_mono (evs : List (TEv α β ε)) (s : CLSt α β)
    (h : (foldSt s evs).halted = false) : s.halted = false := by
  cases hs : s.halted with
  | false => rfl
  | true =>
    rw [foldSt_halted evs s hs] at h
    rw [hs] at h
    exact h

theorem stepCL_gLatest_length (s : CLSt α β) (te : TEv α β ε) :
    ((stepCL s te).1).gLatest.length = s.gLatest.length := by
  obtain ⟨t, src⟩ := te
  by_cases hh : s.halted = true
  · rw [stepCL_of_halted s hh]
  · have hh2 : s.halted = false := Bool.eq_false_iff.mpr hh
    cases src with
    | prim e =>
      cases e with
      | next a => rw [stepCL_prim_next s hh2]
      | error e => rw [stepCL_prim_error s hh2]
      | complete =>
        rw [stepCL_prim_complete s hh2]
        by_cases hd : s.gDone.all id = true
        · rw [if_pos hd]
        · rw [if_neg hd]
    | gate i e =>
      cases e with
      | next b =>
        cases hpl : s.pLatest with
        | some a =>
          rw [stepCL_gate_next_some s hh2 t i b a hpl]
          exact List.length_set _ _ _
        | none =>
          rw [stepCL_gate_next_none s hh2 t i b hpl]
          exact List.length_set _ _ _
      | error e => rw [stepCL_gate_error s hh2]
      | complete =>
        rw [stepCL_gate_complete s hh2]
        by_cases hd : (s.pDone && (s.gDone.set i true).all id) = true
        · rw [if_pos hd]
        · rw [if_neg hd]

theorem stepCL_gDone_length (s : CLSt α β) (te : TEv α β ε) :
    ((stepCL s te).1).gDone.length = s.gDone.length := by
  obtain ⟨t, src⟩ := te
  by_cases hh : s.halted = true
  · rw [stepCL_of_halted s hh]
  · have hh2 : s.halted = false := Bool.eq_false_iff.mpr hh
    cases src with
    | prim e =>
      cases e with
      | next a => rw [stepCL_prim_next s hh2]
      | error e => rw [stepCL_prim_error s hh2]
      | complete =>
        rw [stepCL_prim_complete s hh2]
        by_cases hd : s.gDone.all id = true
        · rw [if_pos hd]
        · rw [if_neg hd]
    | gate i e =>
      cases e with
      | next b =>
        cases hpl : s.pLatest with
        | some a => rw [stepCL_gate_next_some s hh2 t i b a hpl]
        | none => rw [stepCL_gate_next_none s hh2 t i b hpl]
      | error e => rw [stepCL_gate_error s hh2]
      | complete =>
        rw [stepCL_gate_complete s hh2]
        by_cases hd : (s.pDone && (s.gDone.set i true).all id) = true
        · rw [if_pos hd]
          exact List.length_set _ _ _
        · rw [if_neg hd]
          exact List.length_set _ _ _

theorem foldSt_gLatest_length :
    ∀ (evs : List (TEv α β ε)) (s : CLSt α β),
      (foldSt s evs).gLatest.length = s.gLatest.length := by
  intro evs
  induction evs with
  | nil => intro s; rfl
  | cons te rest ih =>
    intro s
    rw [foldSt_cons, ih]
    exact stepCL_gLatest_length s te

theorem foldSt_gDone_length :
    ∀ (evs : List (TEv α β ε)) (s : CLSt α β),
      (foldSt s evs).gDone.length = s.gDone.length := by
  intro evs
  induction evs with
  | nil => intro s; rfl
  | cons te rest ih =>
    intro s
    rw [foldSt_cons, ih]
    exact stepCL_gDone_length s te

theorem stepCL_failed_halted (s : CLSt α β) (te : TEv α β ε)
    (hI : s.failed = true → s.halted = true) :
    ((stepCL s te).1).failed = true → ((stepCL s te).1).halted = true := by
  obtain ⟨t, src⟩ := te
  by_cases hh : s.halted = true
  · rw [stepCL_of_halted s hh]
    exact hI
  · have hh2 : s.halted = false := Bool.eq_false_iff.mpr hh
    have hf : s.failed = false := by
      cases hf2 : s.failed with
      | false => rfl
      | true => exact absurd (hI hf2) hh
    cases src with
    | prim e =>
      cases e with
      | next a =>
        rw [stepCL_prim_next s hh2]
        intro hc
        rw [show ({ s with pLatest := some a } : CLSt α β).failed = s.failed
          from rfl, hf] at hc
        exact Bool.noConfusion hc
      | error e => rw [stepCL_prim_error s hh2]; intro _; rfl
      | complete =>
        rw [stepCL_prim_complete s hh2]
        by_cases hd : s.gDone.all id = true
        · rw [if_pos hd]; intro _; rfl
        · rw [if_neg hd]
          intro hc
          rw [show ({ s with pDone := true } : CLSt α β).failed = s.failed
            from rfl, hf] at hc
          exact Bool.noConfusion hc
    | gate i e =>
      cases e with
      | next b =>
        cases hpl : s.pLatest with
        | some a =>
          rw [stepCL_gate_next_some s hh2 t i b a hpl]
          intro hc
          rw [show ({ s with gLatest := s.gLatest.set i (some b) } :
            CLSt α β).failed = s.failed from rfl, hf] at hc
          exact Bool.noConfusion hc
        | none =>
          rw [stepCL_gate_next_none s hh2 t i b hpl]
          intro hc
          rw [show ({ s with gLatest := s.gLatest.set i (some b) } :
            CLSt α β).failed = s.failed from rfl, hf] at hc
          exact Bool.noConfusion hc
      | error e => rw [stepCL_gate_error s hh2]; intro _; rfl
      | complete =>
        rw [stepCL_gate_complete s hh2]
        by_cases hd : (s.pDone && (s.gDone.set i true).all id) = true
        · rw [if_pos hd]; intro _; rfl
        · rw [if_neg hd]
          intro hc
          rw [show ({ s with gDone := s.gDone.set i true } :
            CLSt α β).failed = s.failed from rfl, hf] at hc
          exact Bool.noConfusion hc

theorem foldSt_failed_halted :
    ∀ (evs : List (TEv α β ε)) (s : CLSt α β),
      (s.failed = true → s.halted = true) →
      (foldSt s evs).failed = true → (foldSt s evs).halted = true := by
  intro evs
  induction evs with
  | nil => intro s hI; exact hI
  | cons te rest ih =>
    intro s hI
    rw [foldSt_cons]
    exact ih _ (stepCL_failed_halted s te hI)

theorem stepCL_completed_inv (s : CLSt α β) (te : TEv α β ε)
    (hI : s.halted = true → s.failed = false →
      s.pDone = true ∧ s.gDone.all id = true) :
    (stepCL s te).1.halted = true → (stepCL s te).1.failed = false →
      (stepCL s te).1.pDone = true ∧ (stepCL s te).1.gDone.all id = true := by
  obtain ⟨t, src⟩ := te
  by_cases hh : s.halted = true
  · rw [stepCL_of_halted s hh]
    exact hI
  · have hh2 : s.halted = false := Bool.eq_false_iff.mpr hh
    cases src with
    | prim e =>
      cases e with
      | next a =>
        rw [stepCL_prim_next s hh2]
        intro hc
        rw [show ({ s with pLatest := some a } : CLSt α β).halted = s.halted
          from rfl, hh2] at hc
        exact Bool.noConfusion hc
      | error e =>
        rw [stepCL_prim_error s hh2]
        intro _ hf
        exact Bool.noConfusion hf
      | complete =>
        rw [stepCL_prim_complete s hh2]
        by_cases hd : s.gDone.all id = true
        · rw [if_pos hd]
          intro _ _
          exact ⟨rfl, hd⟩
        · rw [if_neg hd]
          intro hc
          rw [show ({ s with pDone := true } : CLSt α β).halted = s.halted
            from rfl, hh2] at hc
          exact Bool.noConfusion hc
    | gate i e =>
      cases e with
      | next b =>
        cases hpl : s.pLatest with
        | some a =>
          rw [stepCL_gate_next_some s hh2 t i b a hpl]
          intro hc
          rw [show ({ s with gLatest := s.gLatest.set i (some b) } :
            CLSt α β).halted = s.halted from rfl, hh2] at hc
          exact Bool.noConfusion hc
        | none =>
          rw [stepCL_gate_next_none s hh2 t i b hpl]
          intro hc
          rw [show ({ s with gLatest := s.gLatest.set i (some b) } :
            CLSt α β).halted = s.halted from rfl, hh2] at hc
          exact Bool.noConfusion hc
      | error e =>
        rw [stepCL_gate_error s hh2]
        intro _ hf
        exact Bool.noConfusion hf
      | complete =>
        rw [stepCL_gate_complete s hh2]
        by_cases hd : (s.pDone && (s.gDone.set i true).all id) = true
        · rw [if_pos hd]
          intro _ _
          exact ⟨((Bool.and_eq_true _ _).mp hd).1,
            ((Bool.and_eq_true _ _).mp hd).2⟩
        · rw [if_neg hd]
          intro hc
          rw [show ({ s with gDone := s.gDone.set i true } :
            CLSt α β).halted = s.halted from rfl, hh2] at hc
          exact Bool.noConfusion hc

theorem foldSt_completed_inv :
    ∀ (evs : List (TEv α β ε)) (s : CLSt α β),
      (s.halted = true → s.failed = false →
        s.pDone = true ∧ s.gDone.all id = true) →
      (foldSt s evs).halted = true → (foldSt s evs).failed = false →
        (foldSt s evs).pDone = true ∧ (foldSt s evs).gDone.all id = true := by
  intro evs
  induction evs with
  | nil => intro s hI; exact hI
  | cons te rest ih =>
    intro s hI
    rw [foldSt_cons]
    exact ih _ (stepCL_completed_inv s te hI)

theorem foldSt_pDone_src :
    ∀ (evs : List (TEv α β ε)) (s : CLSt α β),
      (foldSt s evs).pDone = true →
      s.pDone = true ∨ ∃ u, (u, Src.prim (Ev.complete (α := α) (ε := ε))) ∈
        evs := by
  intro evs
  induction evs with
  | nil => intro s h; exact Or.inl h
  | cons te rest ih =>
    intro s h
    rw [foldSt_cons] at h
    rcases ih _ h with h1 | ⟨u, hu⟩
    · obtain ⟨t, src⟩ := te
      by_cases hh : s.halted = true
      · rw [stepCL_of_halted s hh] at h1
        exact Or.inl h1
      · have hh2 : s.halted = false := Bool.eq_false_iff.mpr hh
        cases src with
        | prim e =>
          cases e with
          | next a =>
            rw [stepCL_prim_next s hh2] at h1
            exact Or.inl h1
          | error e =>
            rw [stepCL_prim_error s hh2] at h1
            exact Or.inl h1
          | complete => exact Or.inr ⟨t, List.mem_cons_self _ _⟩
        | gate i e =>
          cases e with
          | next b =>
            cases hpl : s.pLatest with
            | some a =>
              rw [stepCL_gate_next_some s hh2 t i b a hpl] at h1
              exact Or.inl h1
            | none =>
              rw [stepCL_gate_next_none s hh2 t i b hpl] at h1
              exact Or.inl h1
          | error e =>
            rw [stepCL_gate_error s hh2] at h1
            exact Or.inl h1
          | complete =>
            rw [stepCL_gate_complete s hh2] at h1
            by_cases hd : (s.pDone && (s.gDone.set i true).all id) = true
            · rw [if_pos hd] at h1
              exact Or.inl h1
            · rw [if_neg hd] at h1
              exact Or.inl h1
    · exact Or.inr ⟨u, List.mem_cons_of_mem _ hu⟩

theorem foldSt_gDone_src :
    ∀ (evs : List (TEv α β ε)) (s : CLSt α β) (i : Nat),
      (foldSt s evs).gDone[i]? = some true →
      s.gDone[i]? = some true ∨
        ∃ u, (u, Src.gate (α := α) (ε := ε) i Ev.complete) ∈ evs := by
  intro evs
  induction evs with
  | nil => intro s i h; exact Or.inl h
  | cons te rest ih =>
    intro s i h
    rw [foldSt_cons] at h
    rcases ih _ i h with h1 | ⟨u, hu⟩
    · obtain ⟨t, src⟩ := te
      by_cases hh : s.halted = true
      · rw [stepCL_of_halted s hh] at h1
        exact Or.inl h1
      · have hh2 : s.halted = false := Bool.eq_false_iff.mpr hh
        cases src with
        | prim e =>
          cases e with
          | next a =>
            rw [stepCL_prim_next s hh2] at h1
            exact Or.inl h1
          | error e =>
            rw [stepCL_prim_error s hh2] at h1
            exact Or.inl h1
          | complete =>
            rw [stepCL_prim_complete s hh2] at h1
            by_cases hd : s.gDone.all id = true
            · rw [if_pos hd] at h1
              exact Or.inl h1
            · rw [if_neg hd] at h1
              exact Or.inl h1
        | gate j e =>
          cases e with
          | next b =>
            cases hpl : s.pLatest with
            | some a =>
              rw [stepCL_gate_next_some s hh2 t j b a hpl] at h1
              exact Or.inl h1
            | none =>
              rw [stepCL_gate_next_none s hh2 t j b hpl] at h1
              exact Or.inl h1
          | error e =>
            rw [stepCL_gate_error s hh2] at h1
            exact Or.inl h1
          | complete =>
            rw [stepCL_gate_complete s hh2] at h1
            by_cases hij : j = i
            · subst hij
              exact Or.inr ⟨t, List.mem_cons_self _ _⟩
            · left
              by_cases hd : (s.pDone && (s.gDone.set j true).all id) = true
              · rw [if_pos hd] at h1
                have h2 : (s.gDone.set j true)[i]? = some true := h1
                rwa [List.getElem?_set, if_neg hij] at h2
              · rw [if_neg hd] at h1
                have h2 : (s.gDone.set j true)[i]? = some true := h1
                rwa [List.getElem?_set, if_neg hij] at h2
    · exact Or.inr ⟨u, List.mem_cons_of_mem _ hu⟩

theorem foldSt_gLatest_some_iff :
    ∀ (evs : List (TEv α β ε)) (s : CLSt α β),
      s.halted = false → (foldSt s evs).halted = false →
      ∀ i, i < s.gLatest.length →
      ((∃ b, (foldSt s evs).gLatest[i]? = some (some b)) ↔
        ((∃ b, s.gLatest[i]? = some (some b)) ∨
          ∃ u b, (u, Src.gate (α := α) (ε := ε) i (Ev.next b)) ∈ evs)) := by
  intro evs
  induction evs with
  | nil =>
    intro s _ _ i _
    constructor
    · intro h; exact Or.inl h
    · rintro (h | ⟨u, b, hm⟩)
      · exact h
      · cases hm
  | cons te rest ih =>
    intro s hh hfold i hi
    rw [foldSt_cons] at hfold ⊢
    obtain ⟨t, src⟩ := te
    have hs1h : ((stepCL s (t, src)).1).halted = false :=
      foldSt_halted_mono rest _ hfold
    have hi2 : i < ((stepCL s (t, src)).1).gLatest.length := by
      rw [stepCL_gLatest_length]
      exact hi
    have hiff := ih ((stepCL s (t, src)).1) hs1h hfold i hi2
    cases src with
    | gate j e =>
      cases e with
      | next b =>
        have hgl : ((stepCL s ((t, Src.gate j (Ev.next b)) :
            TEv α β ε)).1).gLatest = s.gLatest.set j (some b) := by
          cases hpl : s.pLatest with
          | some a => rw [stepCL_gate_next_some s hh t j b a hpl]
          | none => rw [stepCL_gate_next_none s hh t j b hpl]
        by_cases hij : j = i
        · subst hij
          constructor
          · intro _
            exact Or.inr ⟨t, b, List.mem_cons_self _ _⟩
          · intro _
            apply hiff.mpr
            left
            refine ⟨b, ?_⟩
            rw [hgl, List.getElem?_set]
            simp [hi]
        · rw [hgl, List.getElem?_set, if_neg hij] at hiff
          rw [hiff]
          constructor
          · rintro (h1 | ⟨u, b2, hm⟩)
            · exact Or.inl h1
            · exact Or.inr ⟨u, b2, List.mem_cons_of_mem _ hm⟩
          · rintro (h1 | ⟨u, b2, hm⟩)
            · exact Or.inl h1
            · rcases List.mem_cons.mp hm with heq | hm2
              · injection heq with h1 h2
                injection h2 with h3 h4
                exact absurd h3.symm hij
              · exact Or.inr ⟨u, b2, hm2⟩
      | error e =>
        have hgl : ((stepCL s ((t, Src.gate j (Ev.error e)) :
            TEv α β ε)).1).gLatest = s.gLatest := by
          rw [stepCL_gate_error s hh]
        rw [hgl] at hiff
        rw [hiff]
        constructor
        · rintro (h1 | ⟨u, b2, hm⟩)
          · exact Or.inl h1
          · exact Or.inr ⟨u, b2, List.mem_cons_of_mem _ hm⟩
        · rintro (h1 | ⟨u, b2, hm⟩)
          · exact Or.inl h1
          · rcases List.mem_cons.mp hm with heq | hm2
            · injection heq with h1 h2
              injection h2 with h3 h4
              exact Ev.noConfusion h4
            · exact Or.inr ⟨u, b2, hm2⟩
      | complete =>
        have hgl : ((stepCL s ((t, Src.gate j Ev.complete) :
            TEv α β ε)).1).gLatest = s.gLatest := by
          rw [stepCL_gate_complete s hh]
          by_cases hd : (s.pDone && (s.gDone.set j true).all id) = true
          · rw [if_pos hd]
          · rw [if_neg hd]
        rw [hgl] at hiff
        rw [hiff]
        constructor
        · rintro (h1 | ⟨u, b2, hm⟩)
          · exact Or.inl h1
          · exact Or.inr ⟨u, b2, List.mem_cons_of_mem _ hm⟩
        · rintro (h1 | ⟨u, b2, hm⟩)
          · exact Or.inl h1
          · rcases List.mem_cons.mp hm with heq | hm2
            · injection heq with h1 h2
              injection h2 with h3 h4
              exact Ev.noConfusion h4
            · exact Or.inr ⟨u, b2, hm2⟩
    | prim e =>
      have hgl : ((stepCL s ((t, Src.prim e) : TEv α β ε)).1).gLatest =
          s.gLatest := by
        cases e with
        | next a => rw [stepCL_prim_next s hh]
        | error e2 => rw [stepCL_prim_error s hh]
        | complete =>
          rw [stepCL_prim_complete s hh]
          by_cases hd : s.gDone.all id = true
          · rw [if_pos hd]
          · rw [if_neg hd]
      rw [hgl] at hiff
      rw [hiff]
      constructor
      · rintro (h1 | ⟨u, b2, hm⟩)
        · exact Or.inl h1
        · exact Or.inr ⟨u, b2, List.mem_cons_of_mem _ hm⟩
      · rintro (h1 | ⟨u, b2, hm⟩)
        · exact Or.inl h1
        · rcases List.mem_cons.mp hm with heq | hm2
          · injection heq with h1 h2
            exact Src.noConfusion h2
          · exact Or.inr ⟨u, b2, hm2⟩

theorem specOf_halted_true {s : CLSt α β} (hh : s.halted = true) :
    specOf s =
      (if s.failed then SpecState.FAILED else SpecState.COMPLETED) := by
  rw [specOf, if_pos hh]

theorem specOf_not_halted {s : CLSt α β} (hh : s.halted = false) :
    specOf s = (if s.gLatest.all Option.isSome then SpecState.ACTIVE
      else SpecState.WAITING) := by
  rw [specOf, if_neg (by rw [hh]; exact fun hc => Bool.noConfusion hc)]

theorem specOf_completed_dest {s : CLSt α β}
    (h : specOf s = SpecState.COMPLETED) :
    s.halted = true ∧ s.failed = false := by
  cases hh : s.halted with
  | false =>
    rw [specOf_not_halted hh] at h
    by_cases hb : s.gLatest.all Option.isSome = true
    · rw [if_pos hb] at h
      exact SpecState.noConfusion h
    · rw [if_neg hb] at h
      exact SpecState.noConfusion h
  | true =>
    rw [specOf_halted_true hh] at h
    cases hf : s.failed with
    | false => exact ⟨rfl, rfl⟩
    | true =>
      rw [hf, if_pos rfl] at h
      exact SpecState.noConfusion h

theorem specOf_failed_dest {s : CLSt α β}
    (h : specOf s = SpecState.FAILED) :
    s.halted = true ∧ s.failed = true := by
  cases hh : s.halted with
  | false =>
    rw [specOf_not_halted hh] at h
    by_cases hb : s.gLatest.all Option.isSome = true
    · rw [if_pos hb] at h
      exact SpecState.noConfusion h
    · rw [if_neg hb] at h
      exact SpecState.noConfusion h
  | true =>
    rw [specOf_halted_true hh] at h
    cases hf : s.failed with
    | true => exact ⟨rfl, rfl⟩
    | false =>
      rw [hf, if_neg (fun hc => Bool.noConfusion hc)] at h
      exact SpecState.noConfusion h

theorem specOf_active_iff {s : CLSt α β} (hh : s.halted = false) :
    specOf s = SpecState.ACTIVE ↔ s.gLatest.all Option.isSome = true := by
  rw [specOf_not_halted hh]
  by_cases hb : s.gLatest.all Option.isSome = true
  · rw [if_pos hb]
    exact ⟨fun _ => hb, fun _ => rfl⟩
  · rw [if_neg hb]
    exact ⟨fun hc => SpecState.noConfusion hc, fun hc => absurd hc hb⟩

theorem all_isSome_iff {l : List (Option β)} :
    l.all Option.isSome = true ↔
      ∀ i, i < l.length → ∃ b, l[i]? = some (some b) := by
  constructor
  · intro h i hi
    exact all_isSome_get h hi
  · intro h
    rw [List.all_eq_true]
    intro x hx
    obtain ⟨i, hi, heq⟩ := List.getElem_of_mem hx
    obtain ⟨b, hb⟩ := h i hi
    rw [List.getElem?_eq_getElem hi, heq] at hb
    obtain rfl : x = some b := Option.some_inj.mp hb
    rfl

theorem specOf_not_halted_ne_failed {s : CLSt α β} (hh : s.halted = false) :
    specOf s ≠ SpecState.FAILED := by
  rw [specOf_not_halted hh]
  by_cases hb : s.gLatest.all Option.isSome = true
  · rw [if_pos hb]
    exact fun hc => SpecState.noConfusion hc
  · rw [if_neg hb]
    exact fun hc => SpecState.noConfusion hc

theorem specOf_completed_state {s : CLSt α β} (hh : s.halted = true)
    (hf : s.failed = false) : specOf s = SpecState.COMPLETED := by
  rw [specOf_halted_true hh, hf, if_neg (fun hc => Bool.noConfusion hc)]

theorem stepCL_failed_only_on_error (s : CLSt α β) (te : TEv α β ε)
    (hfh : s.failed = true → s.halted = true) :
    specOf ((stepCL s te).1) = SpecState.FAILED →
      specOf s = SpecState.FAILED ∨
      (((∃ e2, te.2 = Src.prim (Ev.error e2)) ∨
        ∃ i e2, te.2 = Src.gate i (Ev.error e2)) ∧
        (specOf s = SpecState.WAITING ∨ specOf s = SpecState.ACTIVE)) := by
  by_cases hh : s.halted = true
  · rw [stepCL_of_halted s hh]
    exact Or.inl
  · have hh2 : s.halted = false := Bool.eq_false_iff.mpr hh
    have hf : s.failed = false := by
      cases hf2 : s.failed with
      | false => rfl
      | true => exact absurd (hfh hf2) hh
    have hWA : specOf s = SpecState.WAITING ∨ specOf s = SpecState.ACTIVE := by
      rw [specOf_not_halted hh2]
      by_cases hb : s.gLatest.all Option.isSome = true
      · rw [if_pos hb]
        exact Or.inr rfl
      · rw [if_neg hb]
        exact Or.inl rfl
    obtain ⟨t, src⟩ := te
    cases src with
    | prim e =>
      cases e with
      | next a =>
        rw [stepCL_prim_next s hh2]
        intro h
        exact absurd h (specOf_not_halted_ne_failed
          (show ({ s with pLatest := some a } : CLSt α β).halted = false
            from hh2))
      | error e =>
        intro _
        exact Or.inr ⟨Or.inl ⟨e, rfl⟩, hWA⟩
      | complete =>
        rw [stepCL_prim_complete s hh2]
        by_cases hd : s.gDone.all id = true
        · rw [if_pos hd]
          intro h
          rw [specOf_completed_state
            (show ({ s with pDone := true, halted := true } :
              CLSt α β).halted = true from rfl)
            (show ({ s with pDone := true, halted := true } :
              CLSt α β).failed = false from hf)] at h
          exact SpecState.noConfusion h
        · rw [if_neg hd]
          intro h
          exact absurd h (specOf_not_halted_ne_failed
            (show ({ s with pDone := true } : CLSt α β).halted = false
              from hh2))
    | gate i e =>
      cases e with
      | next b =>
        cases hpl : s.pLatest with
        | some a =>
          rw [stepCL_gate_next_some s hh2 t i b a hpl]
          intro h
          exact absurd h (specOf_not_halted_ne_failed
            (show ({ s with gLatest := s.gLatest.set i (some b) } :
              CLSt α β).halted = false from hh2))
        | none =>
          rw [stepCL_gate_next_none s hh2 t i b hpl]
          intro h
          exact absurd h (specOf_not_halted_ne_failed
            (show ({ s with gLatest := s.gLatest.set i (some b) } :
              CLSt α β).halted = false from hh2))
      | error e =>
        intro _
        exact Or.inr ⟨Or.inr ⟨i, e, rfl⟩, hWA⟩
      | complete =>
        rw [stepCL_gate_complete s hh2]
        by_cases hd : (s.pDone && (s.gDone.set i true).all id) = true
        · rw [if_pos hd]
          intro h
          rw [specOf_completed_state
            (show ({ s with gDone := s.gDone.set i true, halted := true } :
              CLSt α β).halted = true from rfl)
            (show ({ s with gDone := s.gDone.set i true, halted := true } :
              CLSt α β).failed = false from hf)] at h
          exact SpecState.noConfusion h
        · rw [if_neg hd]
          intro h
          exact absurd h (specOf_not_halted_ne_failed
            (show ({ s with gDone := s.gDone.set i true } :
              CLSt α β).halted = false from hh2))

/-- C7 counterexample: with primary `a|` and a single gate that
completes at frame 0 without ever emitting, the conceptual state
trajectory of the `waitUntil` instance is WAITING, WAITING, WAITING,
COMPLETED: the machine reaches COMPLETED directly from WAITING, never
passing through ACTIVE.  This refutes the claim that COMPLETED is
reached only via the transition ACTIVE → COMPLETED. -/
theorem waitUntil_completed_without_active :
    (stateTrace (initSt 1)
        (merged ([(0, Ev.next 'a'), (1, Ev.complete)] : MStream Char Nat)
          [([(0, Ev.complete)] : MStream Char Nat)])).map specOf =
      [SpecState.WAITING, SpecState.WAITING, SpecState.WAITING,
        SpecState.COMPLETED] ∧
    SpecState.ACTIVE ∉
      (stateTrace (initSt 1)
        (merged ([(0, Ev.next 'a'), (1, Ev.complete)] : MStream Char Nat)
          [([(0, Ev.complete)] : MStream Char Nat)])).map specOf := by
  constructor
  · rfl
  · decide

/-- C7 (amended): the state machine of a `waitUntil` instance, read off
a run of the combined subscriber from its initial state over any
timeline: (a) FAILED and COMPLETED are terminal — a step taken in a
terminal state changes nothing and emits nothing; (b) FAILED is entered
only on an error notification, from WAITING or ACTIVE; (c) while the
instance has not terminated, it is ACTIVE exactly when every gate has
emitted at least one value (order-independent); (d) COMPLETED is
reached only once the primary stream and every gate's `take(1)`
projection have all completed — from WAITING or ACTIVE, not necessarily
through ACTIVE, as a gate completing empty keeps the machine WAITING
until the final completion. -/
theorem waitUntil_state_machine (n : Nat) (evs : List (TEv α β ε))
    (te : TEv α β ε) :
    ((specOf (foldSt (initSt (α := α) (β := β) n) evs) = SpecState.FAILED ∨
      specOf (foldSt (initSt n) evs) = SpecState.COMPLETED) →
      stepCL (foldSt (initSt n) evs) te = (foldSt (initSt n) evs, [])) ∧
    (specOf ((stepCL (foldSt (initSt n) evs) te).1) = SpecState.FAILED →
      specOf (foldSt (initSt n) evs) = SpecState.FAILED ∨
      (((∃ e2, te.2 = Src.prim (Ev.error e2)) ∨
        ∃ i e2, te.2 = Src.gate i (Ev.error e2)) ∧
        (specOf (foldSt (initSt n) evs) = SpecState.WAITING ∨
         specOf (foldSt (initSt n) evs) = SpecState.ACTIVE))) ∧
    ((foldSt (initSt n) evs).halted = false →
      (specOf (foldSt (initSt n) evs) = SpecState.ACTIVE ↔
        ∀ i, i < n → ∃ u b, (u, Src.gate i (Ev.next b)) ∈ evs)) ∧
    (specOf (foldSt (initSt n) evs) = SpecState.COMPLETED →
      (∃ u, (u, Src.prim Ev.complete) ∈ evs) ∧
      ∀ i, i < n → ∃ u, (u, Src.gate i Ev.complete) ∈ evs) := by
  refine ⟨?_, ?_, ?_, ?_⟩
  · intro h
    have hht : (foldSt (initSt (α := α) (β := β) n) evs).halted = true := by
      rcases h with h | h
      · exact (specOf_failed_dest h).1
      · exact (specOf_completed_dest h).1
    exact stepCL_of_halted _ hht te
  · exact stepCL_failed_only_on_error _ te
      (foldSt_failed_halted evs (initSt n) (fun hc => Bool.noConfusion hc))
  · intro hh
    rw [specOf_active_iff hh, all_isSome_iff]
    have hlen : (foldSt (initSt (α := α) (β := β) n) evs).gLatest.length =
        n := by
      rw [foldSt_gLatest_length]
      exact List.length_replicate n none
    constructor
    · intro h i hin
      have hi2 : i < (foldSt (initSt (α := α) (β := β) n) evs).gLatest.length
        := by rw [hlen]; exact hin
      have hsome := h i hi2
      have hres := (foldSt_gLatest_some_iff evs (initSt n) rfl hh i (by
        show i < (List.replicate n (none : Option β)).length
        rw [List.length_replicate]
        exact hin)).mp hsome
      rcases hres with ⟨b2, hb2⟩ | hmem
      · rw [show ((initSt (α := α) (β := β) n)).gLatest =
          List.replicate n none from rfl, List.getElem?_replicate,
          if_pos hin] at hb2
        exact Option.noConfusion (Option.some_inj.mp hb2)
      · exact hmem
    · intro h i hi2
      have hin : i < n := by rw [hlen] at hi2; exact hi2
      exact (foldSt_gLatest_some_iff evs (initSt n) rfl hh i (by
        show i < (List.replicate n (none : Option β)).length
        rw [List.length_replicate]
        exact hin)).mpr (Or.inr (h i hin))
  · intro h
    obtain ⟨hht, hff⟩ := specOf_completed_dest h
    obtain ⟨hpd, hgall⟩ := foldSt_completed_inv evs (initSt n)
      (fun hc _ => Bool.noConfusion hc) hht hff
    constructor
    · rcases foldSt_pDone_src evs (initSt n) hpd with h1 | h2
      · exact Bool.noConfusion h1
      · exact h2
    · intro i hin
      have hi2 : i < (foldSt (initSt (α := α) (β := β) n) evs).gDone.length
        := by
        rw [foldSt_gDone_length]
        rw [show ((initSt (α := α) (β := β) n)).gDone =
          List.replicate n false from rfl, List.length_replicate]
        exact hin
      have hset := all_true_get hgall hi2
      rcases foldSt_gDone_src evs (initSt n) i hset with h1 | h2
      · rw [show ((initSt (α := α) (β := β) n)).gDone =
          List.replicate n false from rfl, List.getElem?_replicate,
          if_pos hin] at h1
        exact Bool.noConfusion (Option.some_inj.mp h1)
      · exact h2

/-- C7 witness: the state-machine theorem instantiated on a run that
reaches COMPLETED (no gates, primary completes at frame 0): the
terminal state absorbs a later notification. -/
theorem waitUntil_state_machine_witness :
    specOf (foldSt (initSt (α := Char) (β := Char) 0)
        [((0, Src.prim Ev.complete) : TEv Char Char Nat)]) =
      SpecState.COMPLETED ∧
    stepCL (foldSt (initSt (α := Char) (β := Char) 0)
        [((0, Src.prim Ev.complete) : TEv Char Char Nat)])
        ((1, Src.prim (Ev.next 'q')) : TEv Char Char Nat) =
      (foldSt (initSt 0) [((0, Src.prim Ev.complete) : TEv Char Char Nat)],
        []) :=
  ⟨by decide,
    (waitUntil_state_machine 0 [(0, Src.prim Ev.complete)]
      (1, Src.prim (Ev.next 'q'))).1 (Or.inr (by decide))⟩

/-! ## Theorems about `pipeIf` -/

/-- C4: the stream produced by `pipeIf(condition, truePipe, falsePipe)`
at a subscription whose world makes the predicate true is exactly
`truePipe` applied to the upstream, and symmetrically for false.  On
the test input `X-y-z|` with the test's branches, the output is
`X---Z|` under a true condition and `x-y-z|` under a false one. -/
theorem pipeIf_selects_branch {W : Type u_4} (condition : W → Bool)
    (truePipe falsePipe : MStream α ε → MStream β ε)
    (stream : MStream α ε) (w : W) :
    (condition w = true →
      pipeIf condition truePipe falsePipe stream w = truePipe stream) ∧
    (condition w = false →
      pipeIf condition truePipe falsePipe stream w = falsePipe stream) ∧
    pipeIf (fun b : Bool => b) truePipeM falsePipeM inM true =
      [(0, Ev.next 'X'), (4, Ev.next 'Z'), (5, Ev.complete)] ∧
    pipeIf (fun b : Bool => b) truePipeM falsePipeM inM false =
      [(0, Ev.next 'x'), (2, Ev.next 'y'), (4, Ev.next 'z'),
        (5, Ev.complete)] := by
  refine ⟨?_, ?_, rfl, rfl⟩
  · intro h
    simp [pipeIf, h]
  · intro h
    simp [pipeIf, h]

/-- C4 witness: with the predicate true at subscription, the output is
the true branch applied to the test input. -/
theorem pipeIf_selects_branch_witness :
    pipeIf (fun b : Bool => b) truePipeM falsePipeM inM true =
      truePipeM inM :=
  (pipeIf_selects_branch (fun b : Bool => b) truePipeM falsePipeM inM
    true).1 rfl

/-- C5: the predicate is read once, at subscription time: the output of
a subscription depends on the predicate only through its value in the
subscription's world, so a later change of the predicate's outcome
cannot affect an already-active subscription; and two independent
subscriptions each observe exactly the branch selected by the
predicate's value at their own subscription time. -/
theorem pipeIf_condition_read_at_subscription {W : Type u_4}
    (c c2 : W → Bool) (tp fp : MStream α ε → MStream β ε)
    (s : MStream α ε) (w w2 : W) :
    (c w = c2 w2 → pipeIf c tp fp s w = pipeIf c2 tp fp s w2) ∧
    (c w = true → c w2 = false →
      pipeIf c tp fp s w = tp s ∧ pipeIf c tp fp s w2 = fp s) := by
  constructor
  · intro h
    unfold pipeIf
    rw [h]
  · intro h1 h2
    constructor
    · simp [pipeIf, h1]
    · simp [pipeIf, h2]

/-- C5 witness: two subscriptions to the same pipeline, the first in a
world where the predicate is true and the second where it is false,
observe respectively the true branch and the false branch. -/
theorem pipeIf_condition_read_at_subscription_witness :
    pipeIf (fun b : Bool => b) truePipeM falsePipeM inM true =
      truePipeM inM ∧
    pipeIf (fun b : Bool => b) truePipeM falsePipeM inM false =
      falsePipeM inM :=
  (pipeIf_condition_read_at_subscription (fun b : Bool => b)
    (fun b : Bool => b) truePipeM falsePipeM inM true false).2 rfl rfl

/-- C8: if reading the predicate or constructing the selected branch
throws at subscription time, `defer` converts the throw into an error
notification delivered to the subscriber at the subscription frame — a
stream-level failure, not a synchronously escaping exception; when
nothing throws, the selected branch's stream is delivered unchanged. -/
theorem pipeIfTry_surfaces_throw_as_error {W : Type u_4}
    (condition : W → Except ε Bool)
    (truePipe falsePipe : MStream α ε → Except ε (MStream β ε))
    (stream : MStream α ε) (w : W) (e : ε) (out : MStream β ε) :
    (condition w = Except.error e →
      pipeIfTry condition truePipe falsePipe stream w =
        [(0, Ev.error e)]) ∧
    (condition w = Except.ok true → truePipe stream = Except.error e →
      pipeIfTry condition truePipe falsePipe stream w =
        [(0, Ev.error e)]) ∧
    (condition w = Except.ok false → falsePipe stream = Except.error e →
      pipeIfTry condition truePipe falsePipe stream w =
        [(0, Ev.error e)]) ∧
    (condition w = Except.ok true → truePipe stream = Except.ok out →
      pipeIfTry condition truePipe falsePipe stream w = out) := by
  refine ⟨?_, ?_, ?_, ?_⟩
  · intro h
    simp [pipeIfTry, h]
  · intro h1 h2
    simp [pipeIfTry, h1, h2]
  · intro h1 h2
    simp [pipeIfTry, h1, h2]
  · intro h1 h2
    simp [pipeIfTry, h1, h2]

/-- C8 witness: a predicate that throws error code 3 at subscription
yields the single error notification at frame 0. -/
theorem pipeIfTry_surfaces_throw_as_error_witness :
    pipeIfTry (fun (_ : Unit) => (Except.error 3 : Except Nat Bool))
      (fun s => Except.ok s) (fun s => Except.ok s) inM () =
      [(0, Ev.error 3)] :=
  (pipeIfTry_surfaces_throw_as_error
    (fun (_ : Unit) => (Except.error 3 : Except Nat Bool))
    (fun s => Except.ok s) (fun s => Except.ok s) inM () 3 inM).1 rfl

/-- C10: the observed stream of a `pipeIf` subscription depends only on
the selected branch: with the predicate true in the subscription's
world, any two choices of the false branch yield identical outputs, and
symmetrically with the predicate false for the true branch. -/
theorem pipeIf_unused_branch_noninterference {W : Type u_4} (c : W → Bool)
    (tp tp2 fp fp2 : MStream α ε → MStream β ε) (s : MStream α ε) (w : W) :
    (c w = true → pipeIf c tp fp s w = pipeIf c tp fp2 s w) ∧
    (c w = false → pipeIf c tp fp s w = pipeIf c tp2 fp s w) := by
  constructor
  · intro h
    simp [pipeIf, h]
  · intro h
    simp [pipeIf, h]

/-- C10 witness: with the predicate true, replacing the false branch by
a different transformation leaves the observed stream unchanged. -/
theorem pipeIf_unused_branch_noninterference_witness :
    pipeIf (fun b : Bool => b) truePipeM falsePipeM inM true =
      pipeIf (fun b : Bool => b) truePipeM (mapOp Char.toUpper) inM true :=
  (pipeIf_unused_branch_noninterference (fun b : Bool => b) truePipeM
    truePipeM falsePipeM (mapOp Char.toUpper) inM true).1 rfl
